import Mathlib

/-!
Probabilistic Game of Life (`conway.go`)

A shallow embedding of `src/conway.go` and a verification of its specification.

Modelling conventions.

* Go `int` is the 64-bit two's-complement integer.  Coordinates and dimensions are
  `Int`; every addition and multiplication of the source that can leave the
  64-bit range is wrapped by `wrapInt`.  `%` and `/` are Go's truncating
  operators (`Int.tmod`, `Int.tdiv`); `%` by zero panics.
* A panic (index out of range, negative `make` length, integer division by zero,
  `rand.Intn` with a non-positive bound) is the result `none`.
* `*Field` pointers: `NewLife` allocates the two fields separately and every row
  separately, so fields and rows never alias, and a field is a value
  (`List (List Bool)`); `Set` returns the updated field.
* `float64` values are exact rationals.  Every float literal of the source is the
  rational number that the nearest IEEE double denotes (`lit_0_95` etc.).  The
  influence weights of `Step` are multiples of `1/16` and at most 24 of them are
  added, so these sums are exact in `float64` and rational addition is the
  addition the program performs.
* The shared generator of `math/rand` is an oracle `Rand` together with a call
  counter: the `k`-th call returns `float64 k` when it is `rand.Float64()` and
  `intn k n` when it is `rand.Intn(n)`.
* `Life.String` returns the bytes that `bytes.Buffer` has collected, as a
  `List Char`.
-/

namespace Conway

/-! ## Machine integers and slices -/

/-- Two's-complement wrap of an integer result into the range of a 64-bit Go `int`. -/
def wrapInt (n : Int) : Int := (n + 2 ^ 63) % 2 ^ 64 - 2 ^ 63

/-- Go's `a % b` on `int`: the remainder has the sign of `a`; a zero divisor panics. -/
def goMod (a b : Int) : Option Int :=
  if b = 0 then none else some (Int.tmod a b)

/-- Go's `make([]T, n)` with zero value `v`: a negative length panics. -/
def makeSlice {α : Type} (n : Int) (v : α) : Option (List α) :=
  if n < 0 then none else some (List.replicate n.toNat v)

/-- Go's bounds-checked read `l[i]`. -/
def index? {α : Type} (l : List α) (i : Int) : Option α :=
  if 0 ≤ i then l[i.toNat]? else none

/-- Go's bounds-checked write `l[i] = v`. -/
def setIndex? {α : Type} (l : List α) (i : Int) (v : α) : Option (List α) :=
  if 0 ≤ i ∧ i < l.length then some (l.set i.toNat v) else none

/-! ## Field -/

/-- The struct `Field`: the rows `s` and the recorded dimensions `w`, `h`. -/
structure Field where
  s : List (List Bool)
  w : Int
  h : Int
deriving DecidableEq

/-- The body of the loop of `NewField`: `s[i] = make([]bool, w)`. -/
def allocRow (w : Int) (s : List (List Bool)) (i : Nat) : Option (List (List Bool)) := do
  let row ← makeSlice w false
  setIndex? s (i : Int) row

/-- The function `NewField`: `make([][]bool, h)`, then one `make([]bool, w)` per row. -/
def NewField (w h : Int) : Option Field := do
  let s ← makeSlice h ([] : List Bool)
  let s ← (List.range s.length).foldlM (allocRow w) s
  pure { s := s, w := w, h := h }

/-- The method `Field.Set`: the unnormalised write `f.s[y][x] = b`. -/
def Field.Set (f : Field) (x y : Int) (b : Bool) : Option Field := do
  let row ← index? f.s y
  let row ← setIndex? row x b
  let s ← setIndex? f.s y row
  pure { f with s := s }

/-- The method `Field.Alive`: `x += f.w; x %= f.w; y += f.h; y %= f.h; return f.s[y][x]`. -/
def Field.Alive (f : Field) (x y : Int) : Option Bool := do
  let x := wrapInt (x + f.w)
  let x ← goMod x f.w
  let y := wrapInt (y + f.h)
  let y ← goMod y f.h
  let row ← index? f.s y
  index? row x

/-! ## Float literals and the two tables -/

/-- The double nearest to the literal `0.001`. -/
def lit_0_001 : ℚ := 1152921504606847 / 1152921504606846976

/-- The double nearest to the literal `0.01`. -/
def lit_0_01 : ℚ := 5764607523034235 / 576460752303423488

/-- The double nearest to the literal `0.02`. -/
def lit_0_02 : ℚ := 5764607523034235 / 288230376151711744

/-- The double nearest to the literal `0.04`. -/
def lit_0_04 : ℚ := 5764607523034235 / 144115188075855872

/-- The double nearest to the literal `0.95`. -/
def lit_0_95 : ℚ := 4278419646001971 / 4503599627370496

/-- The double nearest to the literal `0.9`. -/
def lit_0_9 : ℚ := 8106479329266893 / 9007199254740992

/-- The double nearest to the literal `0.1`. -/
def lit_0_1 : ℚ := 3602879701896397 / 36028797018963968

/-- The conversion `int(neighbors)`: the fractional part is discarded (towards zero). -/
def truncate (q : ℚ) : Int := Int.tdiv q.num (q.den : Int)

/-- The `switch neighbors` of `Next` on the truncated sum; without a matching case
`alive` keeps its initial value `0.0`. -/
def aliveProbability (t : Int) : ℚ :=
  match t with
  | 8 => 0
  | 7 => lit_0_001
  | 6 => lit_0_01
  | 5 => lit_0_02
  | 4 => lit_0_04
  | 3 => lit_0_95
  | 2 => lit_0_9
  | 1 => lit_0_1
  | 0 => 0
  | _ => 0

/-- The map `influenceMap`; a missing key reads as the zero value `0.0`. -/
def influenceMap (d : Int) : ℚ :=
  match d with
  | 0 => 1
  | 1 => 1
  | 2 => 1 / 2
  | 3 => 1 / 4
  | 4 => 1 / 8
  | _ => 0

/-- The closure that `Step` passes to `Next`: `absX, absY` are
`int(math.Abs(float64(x)))` and `int(math.Abs(float64(y)))`; the result is
`(influenceMap[absX] + influenceMap[absY]) / 2`.  The detour through `float64` is
exact below `2^53` and cannot bring a larger magnitude back to a key of the map. -/
def stepInfluence (x y : Int) : ℚ :=
  let absX : Int := |x|
  let absY : Int := |y|
  let valX := influenceMap absX
  let valY := influenceMap absY
  let avg := valX + valY
  avg / 2

/-! ## Next -/

/-- The values of a loop `for i := -r; i <= r; i++`. -/
def offsets (r : Int) : List Int :=
  (List.range (2 * r + 1).toNat).map (fun (k : Nat) => -r + (k : Int))

/-- The neighbour loop of `Next`: the value of `neighbors` after the two nested
loops.  `Alive` is not called at the centre (short-circuit `&&`). -/
def Field.neighbors (f : Field) (x y searchRadius : Int) (influence : Int → Int → ℚ) :
    Option ℚ :=
  (offsets searchRadius).foldlM
    (fun (acc : ℚ) (i : Int) =>
      (offsets searchRadius).foldlM
        (fun (acc : ℚ) (j : Int) =>
          if j ≠ 0 ∨ i ≠ 0 then do
            let a ← f.Alive (wrapInt (x + i)) (wrapInt (y + j))
            pure (if a then acc + influence i j else acc)
          else pure acc) acc) 0

/-- The method `Field.Next`.  `R` is the value of the single `rand.Float64()` call,
made after the neighbour loop. -/
def Field.Next (f : Field) (x y searchRadius : Int) (influence : Int → Int → ℚ) (R : ℚ) :
    Option Bool := do
  let neighbors ← f.neighbors x y searchRadius influence
  let t := truncate neighbors
  let alive := aliveProbability t
  if alive > R then
    if t < 3 then f.Alive x y else pure true
  else pure false

/-! ## Random source -/

/-- The generator of `math/rand` as an oracle indexed by the number of earlier calls. -/
structure Rand where
  float64 : Nat → ℚ
  intn : Nat → Int → Int

/-- What `math/rand` guarantees: `Float64()` lies in `[0,1)` and `Intn(n)` in `[0,n)`. -/
def Rand.Valid (src : Rand) : Prop :=
  (∀ k, 0 ≤ src.float64 k ∧ src.float64 k < 1) ∧
  (∀ k n, 0 < n → 0 ≤ src.intn k n ∧ src.intn k n < n)

/-- The call `rand.Intn(n)` as call number `c`: it panics if `n <= 0`. -/
def Rand.Intn (src : Rand) (c : Nat) (n : Int) : Option (Int × Nat) :=
  if n ≤ 0 then none else some (src.intn c n, c + 1)

/-! ## Life -/

/-- The struct `Life`: the current field `a`, the scratch field `b`, and `w`, `h`. -/
structure Life where
  a : Field
  b : Field
  w : Int
  h : Int
deriving DecidableEq

/-- The body of the seeding loop of `NewLife`:
`a.Set(rand.Intn(w), rand.Intn(h), true)`. -/
def seedCell (w h : Int) (src : Rand) (st : Field × Nat) (_ : Nat) : Option (Field × Nat) := do
  let (x, c1) ← src.Intn st.2 w
  let (y, c2) ← src.Intn c1 h
  let a ← st.1.Set x y true
  pure (a, c2)

/-- The function `NewLife`, started when the generator has served `c` calls. -/
def NewLife (w h : Int) (src : Rand) (c : Nat) : Option (Life × Nat) := do
  let a ← NewField w h
  let n := Int.tdiv (wrapInt (w * h)) 4
  let (a, c) ← (List.range n.toNat).foldlM (seedCell w h src) (a, c)
  let b ← NewField w h
  pure ({ a := a, b := b, w := w, h := h }, c)

/-- The body of the inner loop of `Step` at row `y`, column `x`:
`l.b.Set(x, y, l.a.Next(x, y, 2, influence))`.  The state is the scratch field and
the number of calls the generator has served. -/
def Life.stepCell (l : Life) (src : Rand) (y : Nat) (st : Field × Nat) (x : Nat) :
    Option (Field × Nat) := do
  let v ← l.a.Next (x : Int) (y : Int) 2 stepInfluence (src.float64 st.2)
  let b ← st.1.Set (x : Int) (y : Int) v
  pure (b, st.2 + 1)

/-- The inner loop of `Step`: `for x := 0; x < l.w; x++`. -/
def Life.stepRow (l : Life) (src : Rand) (st : Field × Nat) (y : Nat) :
    Option (Field × Nat) :=
  (List.range l.w.toNat).foldlM (l.stepCell src y) st

/-- The method `Life.Step`, started when the generator has served `c` calls: every
cell of `b` is written with `Next` of `a` (rows outer, columns inner), then the
fields are swapped. -/
def Life.Step (l : Life) (src : Rand) (c : Nat) : Option (Life × Nat) := do
  let (b, c) ← (List.range l.h.toNat).foldlM (l.stepRow src) (l.b, c)
  pure ({ l with a := b, b := l.a }, c)


/-! ## Well-formedness and the spec-side reading of a field -/

/-- The shape invariant of a field: `h` rows of `w` cells each. -/
def Field.Shaped (f : Field) : Prop :=
  (f.s.length : Int) = f.h ∧ ∀ row ∈ f.s, (row.length : Int) = f.w

instance (f : Field) : Decidable f.Shaped := by
  unfold Field.Shaped; infer_instance

/-- A field as `NewField` can have allocated it: the shape invariant, and dimensions
far inside the range of `int` (a row of `w` one-byte cells and a slice of `h` row
headers lie in the address space, whose size is below `2^61` bytes). -/
def Field.WellFormed (f : Field) : Prop :=
  f.Shaped ∧ f.w < 2 ^ 61 ∧ f.h < 2 ^ 61

instance (f : Field) : Decidable f.WellFormed := by
  unfold Field.WellFormed; infer_instance

/-- The raw read `f.s[y][x]`. -/
def Field.at? (f : Field) (x y : Int) : Option Bool := do
  let row ← index? f.s y
  index? row x

/-- The coordinates that the single correction `x += w; x %= w` of `Alive` brings
into `[0, w)`: those not below `-w`, and the multiples of `w`. -/
def Wraps (w x : Int) : Prop := -w ≤ x ∨ w ∣ x

/-- An engine as `NewLife` builds it and `Step` keeps it: two well-formed fields of
the engine's dimensions. -/
def Life.WellFormed (l : Life) : Prop :=
  l.a.WellFormed ∧ l.b.WellFormed ∧ l.a.w = l.w ∧ l.a.h = l.h ∧ l.b.w = l.w ∧ l.b.h = l.h

instance (l : Life) : Decidable l.WellFormed := by
  unfold Life.WellFormed; infer_instance

/-- Spec-side definition of the influence sum `S`: the sum of `influence i j` over
the offsets `(i, j)` of `[-r, r] x [-r, r]` other than `(0, 0)` whose cell, read
with non-negative residues, is alive. -/
def influenceSum (f : Field) (x y r : Int) (influence : Int → Int → ℚ) : ℚ :=
  ((offsets r).map (fun i =>
    ((offsets r).map (fun j =>
      if (j ≠ 0 ∨ i ≠ 0) ∧ f.at? ((x + i) % f.w) ((y + j) % f.h) = some true
      then influence i j else 0)).sum)).sum

/-- Spec-side definition of the decision of `Next` from the truncated sum `t`, the
cell's current state and the draw `R`. -/
def decide_next (t : Int) (current : Bool) (R : ℚ) : Bool :=
  if aliveProbability t > R then (if t < 3 then current else true) else false


/-! ## Concrete boards and draws -/

/-- The 3x3 board whose only alive cell is the centre `(1, 1)`. -/
def centre33 : Field :=
  { s := [[false, false, false], [false, true, false], [false, false, false]], w := 3, h := 3 }

/-- The 3x3 board with every cell dead. -/
def dead33 : Field :=
  { s := [[false, false, false], [false, false, false], [false, false, false]], w := 3, h := 3 }

/-- The 2x2 board with every cell alive. -/
def full22 : Field := { s := [[true, true], [true, true]], w := 2, h := 2 }

/-- The 5x5 board with every cell alive. -/
def full55 : Field := { s := List.replicate 5 (List.replicate 5 true), w := 5, h := 5 }

/-- The generator whose every draw is `0`. -/
def zeroRand : Rand := { float64 := fun _ => 0, intn := fun _ _ => 0 }

/-- An engine whose current board is `centre33` and whose scratch board is dead. -/
def life33 : Life := { a := centre33, b := dead33, w := 3, h := 3 }

/-- An engine whose current board is dead while the scratch board is not. -/
def deadLife33 : Life := { a := dead33, b := centre33, w := 3, h := 3 }

/-- Spec-side definition: the offsets `(i, j)` of the radius-`r` neighbourhood of
`(x, y)`, other than `(0, 0)`, at which `Alive(x+i, y+j)` holds. -/
def aliveOffsets (f : Field) (x y r : Int) : List (Int × Int) :=
  ((offsets r).flatMap (fun i => (offsets r).map (fun j => (i, j)))).filter
    (fun p => decide ((p.2 ≠ 0 ∨ p.1 ≠ 0) ∧ f.Alive (x + p.1) (y + p.2) = some true))

/-! ## Rendering -/

/-- The body of the inner loop of `String` at row `y`, column `x`: `b := byte(' ')`,
`if l.a.Alive(x, y) { b = '*' }`, `buf.WriteByte(b)`. -/
def Life.renderCell (l : Life) (y : Nat) (buf : List Char) (x : Nat) : Option (List Char) := do
  let alive ← l.a.Alive (x : Int) (y : Int)
  let b := if alive then '*' else ' '
  pure (buf ++ [b])

/-- The body of the outer loop of `String`: the inner loop over the columns, then
`buf.WriteByte('\n')`. -/
def Life.renderRow (l : Life) (buf : List Char) (y : Nat) : Option (List Char) := do
  let buf ← (List.range l.w.toNat).foldlM (l.renderCell y) buf
  pure (buf ++ ['\n'])

/-- The method `Life.String`; the result is the byte sequence of the returned string. -/
def Life.String (l : Life) : Option (List Char) :=
  (List.range l.h.toNat).foldlM l.renderRow []

/-! ## Spec-side definitions for the influence table, the seeding and the population -/

/-- Spec-side definition of the influence weight table: `0->1, 1->1, 2->0.5,
3->0.25, 4->0.125`, and 0 for any other distance. -/
def weight (d : Nat) : ℚ :=
  if d = 0 then 1 else if d = 1 then 1 else if d = 2 then 1 / 2
  else if d = 3 then 1 / 4 else if d = 4 then 1 / 8 else 0

/-- Spec-side definition: the coordinates that the first `n` rounds of the seeding
loop draw when the generator has served `c` calls (two `Intn` calls per round). -/
def seedCoords (w h : Int) (src : Rand) (c n : Nat) : List (Int × Int) :=
  (List.range n).map (fun k => (src.intn (c + 2 * k) w, src.intn (c + 2 * k + 1) h))

/-- The number of alive cells of a field. -/
def Field.population (f : Field) : Nat :=
  (f.s.map (fun row => row.count true)).sum

/-- The character that `String` writes for a cell. -/
def cellChar (alive : Bool) : Char := if alive then '*' else ' '

/-! ## More concrete boards and draws -/

/-- A 2x1 engine (two columns, one row): narrower and shorter than the radius-2
neighbourhood. -/
def life21 : Life :=
  { a := { s := [[true, false]], w := 2, h := 1 },
    b := { s := [[false, false]], w := 2, h := 1 }, w := 2, h := 1 }

/-- The engine `life33` with another scratch board. -/
def life33alt : Life := { a := centre33, b := centre33, w := 3, h := 3 }

/-- The 2x2 engine with every cell of the current board alive. -/
def fullLife22 : Life :=
  { a := full22, b := { s := [[false, true], [false, false]], w := 2, h := 2 }, w := 2, h := 2 }

/-- Spec-side definition of one rendered row: one character per cell of row `y`
(`*` for alive, space for dead), followed by the line terminator. -/
def renderLine (f : Field) (w : Nat) (y : Nat) : List Char :=
  (List.range w).map (fun (x : Nat) => cellChar ((f.at? (x : Int) (y : Int)).getD false)) ++
    ['\n']

/-- Spec-side definition of the render output: the rows in board order, row 0 first. -/
def renderSpec (l : Life) : List Char :=
  ((List.range l.h.toNat).map (renderLine l.a l.w.toNat)).flatten
/-! ## Lemmas on machine integers and slices -/

theorem wrapInt_of_range {n : Int} (h1 : -2 ^ 63 ≤ n) (h2 : n < 2 ^ 63) : wrapInt n = n := by
  unfold wrapInt
  rw [Int.emod_eq_of_lt (by omega) (by omega)]
  omega

theorem tmod_add_self_of_wraps {w x : Int} (hw : 0 < w) (hx : Wraps w x) :
    Int.tmod (x + w) w = x % w := by
  rcases hx with hx | hx
  · rw [Int.tmod_eq_emod (by omega) (by omega), Int.add_emod_self]
  · obtain ⟨k, rfl⟩ := hx
    have : w * k + w = w * (k + 1) := by ring
    rw [this, Int.mul_tmod_right, Int.mul_emod_right]

theorem index?_of_range {α : Type} (l : List α) {i : Int} (h0 : 0 ≤ i) (h1 : i < l.length) :
    ∃ v, index? l i = some v ∧ l[i.toNat]? = some v := by
  have : i.toNat < l.length := by omega
  refine ⟨l[i.toNat], ?_, ?_⟩
  · simp [index?, h0, List.getElem?_eq_getElem this]
  · simp [List.getElem?_eq_getElem this]

theorem at?_isSome (f : Field) (hs : f.Shaped) {x y : Int}
    (hx0 : 0 ≤ x) (hx1 : x < f.w) (hy0 : 0 ≤ y) (hy1 : y < f.h) :
    ∃ v, f.at? x y = some v := by
  obtain ⟨hlen, hrows⟩ := hs
  obtain ⟨row, hrow, hget⟩ := index?_of_range f.s hy0 (by omega)
  have hmem : row ∈ f.s := List.getElem?_mem hget
  obtain ⟨v, hv, _⟩ := index?_of_range row hx0 (by rw [hrows row hmem]; exact hx1)
  exact ⟨v, by simp [Field.at?, hrow, hv]⟩

/-- Within one period below the board (or on multiples of the dimension) and without
overflow, `Alive` is the raw read at the non-negative residues. -/
theorem Alive_eq_at (f : Field) (hw : 0 < f.w) (hh : 0 < f.h) {x y : Int}
    (hx : Wraps f.w x) (hy : Wraps f.h y)
    (hxl : -2 ^ 63 ≤ x + f.w) (hxu : x + f.w < 2 ^ 63)
    (hyl : -2 ^ 63 ≤ y + f.h) (hyu : y + f.h < 2 ^ 63) :
    f.Alive x y = f.at? (x % f.w) (y % f.h) := by
  unfold Field.Alive Field.at? goMod
  rw [wrapInt_of_range hxl hxu, wrapInt_of_range hyl hyu]
  simp [hw.ne', hh.ne', tmod_add_self_of_wraps hw hx, tmod_add_self_of_wraps hh hy]

theorem Alive_inrange (f : Field) (hf : f.WellFormed) {x y : Int}
    (hx0 : 0 ≤ x) (hx1 : x < f.w) (hy0 : 0 ≤ y) (hy1 : y < f.h) :
    f.Alive x y = f.at? x y := by
  obtain ⟨_, hwb, hhb⟩ := hf
  rw [Alive_eq_at f (by omega) (by omega) (Or.inl (by omega)) (Or.inl (by omega))
    (by omega) (by omega) (by omega) (by omega),
    Int.emod_eq_of_lt hx0 hx1, Int.emod_eq_of_lt hy0 hy1]

/-! ## Loops -/

/-- Invariant rule for a counted loop whose body may panic. -/
theorem foldlM_range_inv {σ : Type} (f : σ → Nat → Option σ) (Inv : Nat → σ → Prop)
    (n : Nat) (s0 : σ) (h0 : Inv 0 s0)
    (hstep : ∀ k s, k < n → Inv k s → ∃ s', f s k = some s' ∧ Inv (k + 1) s') :
    ∃ s', (List.range n).foldlM f s0 = some s' ∧ Inv n s' := by
  induction n with
  | zero => exact ⟨s0, by simp, h0⟩
  | succ n ih =>
    obtain ⟨s1, h1, hi1⟩ := ih (fun k s hk => hstep k s (by omega))
    obtain ⟨s2, h2, hi2⟩ := hstep n s1 (by omega) hi1
    refine ⟨s2, ?_, hi2⟩
    rw [List.range_succ, List.foldlM_append, h1]
    simp [h2]

/-- A loop whose body adds `t a` to the accumulator computes the sum of the `t a`. -/
theorem foldlM_add {α : Type} (L : List α) (step : ℚ → α → Option ℚ) (t : α → ℚ)
    (h : ∀ a ∈ L, ∀ acc, step acc a = some (acc + t a)) (acc0 : ℚ) :
    L.foldlM step acc0 = some (acc0 + (L.map t).sum) := by
  induction L generalizing acc0 with
  | nil => simp
  | cons a L ih =>
    rw [List.foldlM_cons, h a (List.mem_cons_self _ _)]
    simp only [Option.bind_eq_bind, Option.some_bind]
    rw [ih (fun b hb => h b (List.mem_cons_of_mem _ hb))]
    simp [add_assoc]

theorem mem_offsets {r i : Int} : i ∈ offsets r ↔ -r ≤ i ∧ i ≤ r := by
  simp only [offsets, List.mem_map, List.mem_range]
  constructor
  · rintro ⟨k, hk, rfl⟩
    have : (k : Int) < 2 * r + 1 := by omega
    omega
  · rintro ⟨h1, h2⟩
    refine ⟨(i + r).toNat, ?_, ?_⟩
    · omega
    · rw [Int.toNat_of_nonneg (by omega)]; ring

/-! ## Next -/

/-- One neighbour read of `Next` on a well-formed field, for a radius that stays
within one period of the board. -/
theorem Alive_offset (f : Field) (hf : f.WellFormed) (hw : 0 < f.w) (hh : 0 < f.h)
    {x y r i j : Int} (hx0 : 0 ≤ x) (hx1 : x < f.w) (hy0 : 0 ≤ y) (hy1 : y < f.h)
    (hr : r < 2 ^ 61) (hrw : r ≤ f.w ∨ f.w = 1) (hrh : r ≤ f.h ∨ f.h = 1)
    (hi : i ∈ offsets r) (hj : j ∈ offsets r) :
    ∃ v, f.Alive (wrapInt (x + i)) (wrapInt (y + j)) = some v ∧
      f.at? ((x + i) % f.w) ((y + j) % f.h) = some v := by
  obtain ⟨hs, hwb, hhb⟩ := hf
  rw [mem_offsets] at hi hj
  rw [wrapInt_of_range (by omega) (by omega), wrapInt_of_range (by omega) (by omega)]
  have hxw : Wraps f.w (x + i) := by
    rcases hrw with h | h
    · exact Or.inl (by omega)
    · exact Or.inr (by rw [h]; exact one_dvd _)
  have hyw : Wraps f.h (y + j) := by
    rcases hrh with h | h
    · exact Or.inl (by omega)
    · exact Or.inr (by rw [h]; exact one_dvd _)
  rw [Alive_eq_at f hw hh hxw hyw (by omega) (by omega) (by omega) (by omega)]
  obtain ⟨v, hv⟩ := at?_isSome f hs (Int.emod_nonneg (x + i) hw.ne')
    (Int.emod_lt_of_pos (x + i) hw) (Int.emod_nonneg (y + j) hh.ne')
    (Int.emod_lt_of_pos (y + j) hh)
  exact ⟨v, hv, hv⟩

/-- The neighbour loop of `Next` computes the spec-side influence sum. -/
theorem neighbors_eq (f : Field) (hf : f.WellFormed) (hw : 0 < f.w) (hh : 0 < f.h)
    {x y r : Int} (hx0 : 0 ≤ x) (hx1 : x < f.w) (hy0 : 0 ≤ y) (hy1 : y < f.h)
    (hr : r < 2 ^ 61) (hrw : r ≤ f.w ∨ f.w = 1) (hrh : r ≤ f.h ∨ f.h = 1)
    (influence : Int → Int → ℚ) :
    f.neighbors x y r influence = some (influenceSum f x y r influence) := by
  unfold Field.neighbors influenceSum
  rw [foldlM_add (offsets r) _ (fun i =>
    ((offsets r).map (fun j =>
      if (j ≠ 0 ∨ i ≠ 0) ∧ f.at? ((x + i) % f.w) ((y + j) % f.h) = some true
      then influence i j else 0)).sum)]
  · simp
  · intro i hi acc
    apply foldlM_add
    intro j hj acc
    by_cases hc : j ≠ 0 ∨ i ≠ 0
    · obtain ⟨v, hv, hat⟩ := Alive_offset f hf hw hh hx0 hx1 hy0 hy1 hr hrw hrh hi hj
      rw [if_pos hc, hv, hat]
      cases v <;> simp [hc]
    · rw [if_neg hc]
      simp [hc]

/-- The behaviour of `Next` on a well-formed field for a radius within one period of
the board: it returns, and its value is the spec-side decision on the truncated
spec-side influence sum. -/
theorem Next_spec (f : Field) (hf : f.WellFormed) (hw : 0 < f.w) (hh : 0 < f.h)
    {x y r : Int} (hx0 : 0 ≤ x) (hx1 : x < f.w) (hy0 : 0 ≤ y) (hy1 : y < f.h)
    (hr : r < 2 ^ 61) (hrw : r ≤ f.w ∨ f.w = 1) (hrh : r ≤ f.h ∨ f.h = 1)
    (influence : Int → Int → ℚ) (R : ℚ) :
    ∃ v, f.at? x y = some v ∧
      f.Next x y r influence R =
        some (decide_next (truncate (influenceSum f x y r influence)) v R) := by
  obtain ⟨v, hv⟩ := at?_isSome f hf.1 hx0 hx1 hy0 hy1
  refine ⟨v, hv, ?_⟩
  unfold Field.Next decide_next
  rw [neighbors_eq f hf hw hh hx0 hx1 hy0 hy1 hr hrw hrh influence,
    Alive_inrange f hf hx0 hx1 hy0 hy1, hv]
  simp only [Option.bind_eq_bind, Option.some_bind, gt_iff_lt]
  split_ifs <;> rfl

/-! ## Set -/

theorem index?_set {α : Type} (l : List α) (n : Nat) (v : α) (i : Int) :
    index? (l.set n v) i =
      if 0 ≤ i ∧ i.toNat = n ∧ n < l.length then some v else index? l i := by
  unfold index?
  by_cases h0 : 0 ≤ i
  · simp only [h0, if_true, true_and, List.getElem?_set]
    by_cases h1 : n = i.toNat
    · subst h1
      by_cases h3 : i.toNat < l.length
      · simp [h3]
      · simp [h3, List.getElem?_eq_none (Nat.le_of_not_lt h3)]
    · have h2 : ¬ i.toNat = n := fun h => h1 h.symm
      simp [h1, h2]
  · simp [h0]

/-- An in-range `Set` succeeds, keeps the shape and the dimensions, writes the cell
and leaves every other raw read unchanged. -/
theorem Set_inrange (f : Field) (hs : f.Shaped) {x y : Int} (b : Bool)
    (hx0 : 0 ≤ x) (hx1 : x < f.w) (hy0 : 0 ≤ y) (hy1 : y < f.h) :
    ∃ f', f.Set x y b = some f' ∧ f'.Shaped ∧ f'.w = f.w ∧ f'.h = f.h ∧
      f'.at? x y = some b ∧
      ∀ x' y', (x' ≠ x ∨ y' ≠ y) → f'.at? x' y' = f.at? x' y' := by
  obtain ⟨hlen, hrows⟩ := hs
  obtain ⟨row, hrow, hget⟩ := index?_of_range f.s hy0 (by omega)
  have hmem : row ∈ f.s := List.getElem?_mem hget
  have hrl : (row.length : Int) = f.w := hrows row hmem
  have hyn : y.toNat < f.s.length := by omega
  refine ⟨{ f with s := f.s.set y.toNat (row.set x.toNat b) }, ?_, ⟨?_, ?_⟩, rfl, rfl, ?_, ?_⟩
  · simp [Field.Set, hrow, setIndex?, hx0, hy0, hrl, hx1, hlen, hy1]
  · simpa using hlen
  · intro r hr
    rcases List.mem_or_eq_of_mem_set hr with h | h
    · exact hrows r h
    · rw [h]; simpa using hrl
  · have hxn : x.toNat < row.length := by omega
    simp [Field.at?, index?_set, hy0, hyn, hx0, hxn]
  · intro x' y' hne
    simp only [Field.at?, index?_set]
    by_cases hy' : 0 ≤ y' ∧ y'.toNat = y.toNat ∧ y.toNat < f.s.length
    · have hyy : y' = y := by omega
      subst hyy
      have hxx : ¬ (0 ≤ x' ∧ x'.toNat = x.toNat ∧ x.toNat < row.length) := by
        rintro ⟨h1, h2, _⟩
        rcases hne with h | h
        · exact h (by omega)
        · exact h rfl
      simp [hy', hrow, index?_set, hxx]
    · simp [hy']

/-! ## Step -/

/-- On a well-formed field with positive dimensions `Next` with radius 2 returns. -/
theorem Next_two_isSome (f : Field) (hf : f.WellFormed) (hw : 0 < f.w) (hh : 0 < f.h)
    {x y : Int} (hx0 : 0 ≤ x) (hx1 : x < f.w) (hy0 : 0 ≤ y) (hy1 : y < f.h)
    (influence : Int → Int → ℚ) (R : ℚ) :
    ∃ v, f.Next x y 2 influence R = some v := by
  obtain ⟨v, _, hv⟩ := Next_spec f hf hw hh hx0 hx1 hy0 hy1 (r := 2) (by norm_num)
    (by omega) (by omega) influence R
  exact ⟨_, hv⟩

/-- The inner loop of `Step` on row `y`: it returns, serves one draw per column,
writes row `y` with the values of `Next` on the current field and leaves the other
rows of the scratch field unchanged. -/
theorem stepRow_run (l : Life) (hl : l.WellFormed) (hw : 0 < l.w) (hh : 0 < l.h)
    (src : Rand) (y : Nat) (hy : (y : Int) < l.h) (b0 : Field) (k0 : Nat)
    (hb : b0.Shaped) (hbw : b0.w = l.w) (hbh : b0.h = l.h) :
    ∃ b, l.stepRow src (b0, k0) y = some (b, k0 + l.w.toNat) ∧
      b.Shaped ∧ b.w = l.w ∧ b.h = l.h ∧
      (∀ x : Nat, (x : Int) < l.w →
        b.at? x y = l.a.Next x y 2 stepInfluence (src.float64 (k0 + x))) ∧
      (∀ x' y' : Int, y' ≠ y → b.at? x' y' = b0.at? x' y') := by
  obtain ⟨ha, _, haw, hah, _, _⟩ := hl
  obtain ⟨⟨b, k⟩, hrun, hs, hw', hh', hk, hrow, hrest⟩ :=
    foldlM_range_inv (l.stepCell src y)
      (fun n st => st.1.Shaped ∧ st.1.w = l.w ∧ st.1.h = l.h ∧ st.2 = k0 + n ∧
        (∀ x : Nat, x < n →
          st.1.at? x y = l.a.Next x y 2 stepInfluence (src.float64 (k0 + x))) ∧
        (∀ x' y' : Int, y' ≠ y → st.1.at? x' y' = b0.at? x' y'))
      l.w.toNat (b0, k0)
      ⟨hb, hbw, hbh, rfl, fun x hx => absurd hx (Nat.not_lt_zero x), fun _ _ _ => rfl⟩
      (by
        rintro n ⟨b, k⟩ hn ⟨hs, hw', hh', hk, hrow, hrest⟩
        simp only at hs hw' hh' hk hrow hrest
        have hnw : (n : Int) < l.w := by omega
        obtain ⟨v, hv⟩ := Next_two_isSome l.a ha (by omega) (by omega)
          (x := (n : Int)) (y := (y : Int)) (by omega) (by omega) (by omega) (by omega)
          stepInfluence (src.float64 k)
        obtain ⟨b', hset, hs2, hw2, hh2, hat, hframe⟩ := Set_inrange b hs
          (x := (n : Int)) (y := (y : Int)) v (by omega) (by omega) (by omega) (by omega)
        refine ⟨(b', k + 1), ?_, hs2, hw2.trans hw', hh2.trans hh', by simp only; omega, ?_, ?_⟩
        · simp [Life.stepCell, hv, hset]
        · intro x hx
          by_cases hxn : x = n
          · subst hxn
            simp only
            rw [hat, ← hk, hv]
          · simp only
            rw [hframe x y (Or.inl (by omega))]
            exact hrow x (by omega)
        · intro x' y' hy'
          simp only
          rw [hframe x' y' (Or.inr hy')]
          exact hrest x' y' hy')
  simp only at hs hw' hh' hk hrow hrest
  refine ⟨b, ?_, hs, hw', hh', ?_, hrest⟩
  · rw [← hk]; exact hrun
  · intro x hx
    exact hrow x (by omega)

/-- The run of `Step` on a well-formed engine: it returns, serves `h * w` draws, the
old scratch field becomes the current field holding at `(x, y)` the value of `Next`
on the old current field with draw number `y * w + x`, and the old current field
becomes the scratch field. -/
theorem Step_run (l : Life) (hl : l.WellFormed) (hw : 0 < l.w) (hh : 0 < l.h)
    (src : Rand) (c : Nat) :
    ∃ b, l.Step src c = some ({ l with a := b, b := l.a }, c + l.h.toNat * l.w.toNat) ∧
      b.WellFormed ∧ b.w = l.w ∧ b.h = l.h ∧
      ∀ x y : Nat, (x : Int) < l.w → (y : Int) < l.h →
        b.at? x y =
          l.a.Next x y 2 stepInfluence (src.float64 (c + y * l.w.toNat + x)) := by
  have hl' := hl
  obtain ⟨ha, hb, haw, hah, hbw, hbh⟩ := hl'
  obtain ⟨⟨b, k⟩, hrun, hs, hw', hh', hk, hcells⟩ :=
    foldlM_range_inv (l.stepRow src)
      (fun n st => st.1.Shaped ∧ st.1.w = l.w ∧ st.1.h = l.h ∧ st.2 = c + n * l.w.toNat ∧
        (∀ x y : Nat, y < n → (x : Int) < l.w →
          st.1.at? x y =
            l.a.Next x y 2 stepInfluence (src.float64 (c + y * l.w.toNat + x))))
      l.h.toNat (l.b, c)
      ⟨hb.1, hbw, hbh, by simp, fun x y hy => absurd hy (Nat.not_lt_zero y)⟩
      (by
        rintro n ⟨b, k⟩ hn ⟨hs, hw', hh', hk, hcells⟩
        simp only at hs hw' hh' hk hcells
        obtain ⟨b', hrow, hs2, hw2, hh2, hnew, hold⟩ :=
          stepRow_run l hl hw hh src n (by omega) b k hs hw' hh'
        refine ⟨(b', k + l.w.toNat), hrow, hs2, hw2, hh2, ?_, ?_⟩
        · simp only; rw [hk]; ring
        · intro x y hy hx
          simp only
          by_cases hyn : y = n
          · subst hyn
            rw [hnew x hx, hk]
          · rw [hold x y (by omega)]
            exact hcells x y (by omega) hx)
  simp only at hs hw' hh' hk hcells
  refine ⟨b, ?_, ⟨hs, ?_, ?_⟩, hw', hh', ?_⟩
  · simp [Life.Step, hrun, hk]
  · rw [hw', ← haw]; exact ha.2.1
  · rw [hh', ← hah]; exact ha.2.2
  · intro x y hx hy
    exact hcells x y (by omega) hx

/-! ## The claims -/

theorem toNat_index {w x y : Int} (hx0 : 0 ≤ x) (hy0 : 0 ≤ y) (hw : 0 ≤ w) :
    y.toNat * w.toNat + x.toNat = (y * w + x).toNat := by
  have h : ((y.toNat * w.toNat + x.toNat : Nat) : Int) = y * w + x := by
    push_cast
    rw [Int.toNat_of_nonneg hx0, Int.toNat_of_nonneg hy0, Int.toNat_of_nonneg hw]
  have h2 : 0 ≤ y * w + x := by positivity
  omega

/-- C1: on a well-formed engine with `w >= 1` and `h >= 1`, for every sequence of
draws, `Step` returns, and at every in-range cell `(x, y)` the new current grid
holds exactly the value that `Next(x, y, 2, influence)` computes on the pre-step
current grid with draw number `y * w + x` of the step; nothing written during the
step is read. -/
theorem Step_reads_pre_step_board (l : Life) (hl : l.WellFormed) (hw : 1 ≤ l.w)
    (hh : 1 ≤ l.h) (src : Rand) (c : Nat) :
    ∃ l', l.Step src c = some (l', c + (l.h * l.w).toNat) ∧
      ∀ x y : Int, 0 ≤ x → x < l.w → 0 ≤ y → y < l.h →
        ∃ v, l.a.Next x y 2 stepInfluence (src.float64 (c + (y * l.w + x).toNat)) = some v ∧
          l'.a.Alive x y = some v := by
  obtain ⟨b, hrun, hb, hbw, hbh, hcells⟩ := Step_run l hl (by omega) (by omega) src c
  have haw : l.a.w = l.w := hl.2.2.1
  have hah : l.a.h = l.h := hl.2.2.2.1
  refine ⟨{ l with a := b, b := l.a }, ?_, ?_⟩
  · rw [hrun]
    have h := toNat_index (w := l.w) (x := 0) (y := l.h) le_rfl (by omega) (by omega)
    simp only [Int.toNat_zero, add_zero] at h
    rw [h]
  · intro x y hx0 hx1 hy0 hy1
    have hc := hcells x.toNat y.toNat (by omega) (by omega)
    rw [Int.toNat_of_nonneg hx0, Int.toNat_of_nonneg hy0, add_assoc,
      toNat_index hx0 hy0 (by omega)] at hc
    obtain ⟨v, hv⟩ := Next_two_isSome l.a hl.1 (by omega) (by omega)
      hx0 (by omega) hy0 (by omega) stepInfluence (src.float64 (c + (y * l.w + x).toNat))
    refine ⟨v, hv, ?_⟩
    show b.Alive x y = some v
    rw [Alive_inrange b hb hx0 (by omega) hy0 (by omega), hc, hv]

theorem Step_reads_pre_step_board_witness :
    ∃ l', life33.Step zeroRand 0 = some (l', 0 + (life33.h * life33.w).toNat) ∧
      ∀ x y : Int, 0 ≤ x → x < life33.w → 0 ≤ y → y < life33.h →
        ∃ v, life33.a.Next x y 2 stepInfluence
            (zeroRand.float64 (0 + (y * life33.w + x).toNat)) = some v ∧
          l'.a.Alive x y = some v :=
  Step_reads_pre_step_board life33 (by decide) (by decide) (by decide) zeroRand 0

/-! ### C3: the range of the truncated influence sum -/

theorem offsets_two : offsets 2 = [-2, -1, 0, 1, 2] := by decide

theorem stepInfluence_nonneg (i j : Int) : 0 ≤ stepInfluence i j := by
  have h : ∀ d : Int, 0 ≤ influenceMap d := by
    intro d
    unfold influenceMap
    split <;> norm_num
  unfold stepInfluence
  have h1 := h |i|
  have h2 := h |j|
  positivity

theorem influenceSum_two_bounds (f : Field) (x y : Int) :
    0 ≤ influenceSum f x y 2 stepInfluence ∧ influenceSum f x y 2 stepInfluence ≤ 19 := by
  constructor
  · unfold influenceSum
    apply List.sum_nonneg
    intro q hq
    obtain ⟨i, _, rfl⟩ := List.mem_map.1 hq
    apply List.sum_nonneg
    intro q hq
    obtain ⟨j, _, rfl⟩ := List.mem_map.1 hq
    split_ifs
    · exact stepInfluence_nonneg i j
    · exact le_rfl
  · have htotal : (((offsets 2).map (fun i =>
        ((offsets 2).map (fun j =>
          if j ≠ 0 ∨ i ≠ 0 then stepInfluence i j else 0)).sum)).sum : ℚ) = 19 := by
      decide!
    rw [← htotal]
    unfold influenceSum
    apply List.sum_le_sum
    intro i _
    apply List.sum_le_sum
    intro j _
    by_cases hc : j ≠ 0 ∨ i ≠ 0
    · rw [if_pos hc]
      split_ifs
      · exact le_rfl
      · exact stepInfluence_nonneg i j
    · rw [if_neg hc, if_neg (fun h => hc h.1)]

theorem truncate_bounds {q : ℚ} {n : Int} (h0 : 0 ≤ q) (h1 : q ≤ n) :
    0 ≤ truncate q ∧ truncate q ≤ n := by
  have hnum : 0 ≤ q.num := Rat.num_nonneg.2 h0
  have hfl : truncate q = ⌊q⌋ := by
    unfold truncate
    rw [Int.tdiv_eq_ediv hnum (by positivity)]
    exact Rat.floor_def.symm
  rw [hfl]
  exact ⟨Int.floor_nonneg.2 h0, Int.floor_le_iff.2 (lt_of_le_of_lt h1 (by norm_num))⟩

/-- C3 (refuted as stated): on the 5x5 board with every cell alive the truncated
influence sum that `Step` computes for cell `(2, 2)` is 19, outside `0..8`. -/
theorem truncated_sum_exceeds_eight :
    ∃ s, full55.neighbors 2 2 2 stepInfluence = some s ∧ truncate s = 19 ∧
      ¬ (0 ≤ truncate s ∧ truncate s ≤ 8) := by
  refine ⟨19, by decide!, by decide!, by decide!⟩

/-- C3 (amended): for every well-formed board with `w, h >= 1` and every in-range
cell, the neighbour loop of `Step` (radius 2, weights `0->1, 1->1, 2->0.5` averaged
over the two axes) returns a sum whose truncation lies in `0..19`. -/
theorem truncated_sum_range (f : Field) (hf : f.WellFormed) (hw : 1 ≤ f.w) (hh : 1 ≤ f.h)
    (x y : Int) (hx0 : 0 ≤ x) (hx1 : x < f.w) (hy0 : 0 ≤ y) (hy1 : y < f.h) :
    ∃ s, f.neighbors x y 2 stepInfluence = some s ∧ 0 ≤ truncate s ∧ truncate s ≤ 19 := by
  refine ⟨_, neighbors_eq f hf (by omega) (by omega) hx0 hx1 hy0 hy1 (by norm_num)
    (by omega) (by omega) stepInfluence, ?_⟩
  have h := influenceSum_two_bounds f x y
  exact truncate_bounds h.1 (by exact_mod_cast h.2)

theorem truncated_sum_range_witness :
    ∃ s, full55.neighbors 2 2 2 stepInfluence = some s ∧ 0 ≤ truncate s ∧ truncate s ≤ 19 :=
  truncated_sum_range full55 (by decide) (by decide) (by decide) 2 2
    (by decide) (by decide) (by decide) (by decide)

/-! ### C4: toroidal wraparound of `Alive` -/

theorem Alive_congr_residue (f : Field) (hf : f.WellFormed) (hw : 0 < f.w) (hh : 0 < f.h)
    {x1 y1 x2 y2 : Int} (hx1 : -f.w ≤ x1) (hx1u : x1 ≤ f.w) (hx2 : -f.w ≤ x2) (hx2u : x2 ≤ f.w)
    (hy1 : -f.h ≤ y1) (hy1u : y1 ≤ f.h) (hy2 : -f.h ≤ y2) (hy2u : y2 ≤ f.h)
    (hx : x1 % f.w = x2 % f.w) (hy : y1 % f.h = y2 % f.h) :
    ∃ v, f.Alive x1 y1 = some v ∧ f.Alive x2 y2 = some v := by
  obtain ⟨hs, hwb, hhb⟩ := hf
  rw [Alive_eq_at f hw hh (Or.inl hx1) (Or.inl hy1) (by omega) (by omega) (by omega) (by omega),
    Alive_eq_at f hw hh (Or.inl hx2) (Or.inl hy2) (by omega) (by omega) (by omega) (by omega),
    hx, hy]
  obtain ⟨v, hv⟩ := at?_isSome f hs (Int.emod_nonneg x2 hw.ne') (Int.emod_lt_of_pos x2 hw)
    (Int.emod_nonneg y2 hh.ne') (Int.emod_lt_of_pos y2 hh)
  exact ⟨v, hv, hv⟩

theorem neg_one_emod (w : Int) : (-1) % w = (w - 1) % w := by
  have h : (-1 : Int) = (w - 1) + (-1) * w := by ring
  rw [h, Int.add_mul_emod_self]

/-- C4: on a well-formed grid of width `W >= 1` and height `H >= 1`, for in-range
`x` and `y`, all eight reads return and `Alive(-1, y) = Alive(W-1, y)`,
`Alive(W, y) = Alive(0, y)`, `Alive(x, -1) = Alive(x, H-1)`, `Alive(x, H) = Alive(x, 0)`. -/
theorem Alive_wraps_at_edges (f : Field) (hf : f.WellFormed) (hw : 1 ≤ f.w) (hh : 1 ≤ f.h)
    (x y : Int) (hx0 : 0 ≤ x) (hx1 : x < f.w) (hy0 : 0 ≤ y) (hy1 : y < f.h) :
    (∃ v, f.Alive (-1) y = some v ∧ f.Alive (f.w - 1) y = some v) ∧
    (∃ v, f.Alive f.w y = some v ∧ f.Alive 0 y = some v) ∧
    (∃ v, f.Alive x (-1) = some v ∧ f.Alive x (f.h - 1) = some v) ∧
    (∃ v, f.Alive x f.h = some v ∧ f.Alive x 0 = some v) := by
  have hw' : 0 < f.w := by omega
  have hh' : 0 < f.h := by omega
  refine ⟨?_, ?_, ?_, ?_⟩
  · exact Alive_congr_residue f hf hw' hh' (by omega) (by omega) (by omega) (by omega)
      (by omega) (by omega) (by omega) (by omega) (neg_one_emod f.w) rfl
  · exact Alive_congr_residue f hf hw' hh' (by omega) (by omega) (by omega) (by omega)
      (by omega) (by omega) (by omega) (by omega) (by simp) rfl
  · exact Alive_congr_residue f hf hw' hh' (by omega) (by omega) (by omega) (by omega)
      (by omega) (by omega) (by omega) (by omega) rfl (neg_one_emod f.h)
  · exact Alive_congr_residue f hf hw' hh' (by omega) (by omega) (by omega) (by omega)
      (by omega) (by omega) (by omega) (by omega) rfl (by simp)

theorem Alive_wraps_at_edges_witness :
    (∃ v, centre33.Alive (-1) 1 = some v ∧ centre33.Alive (centre33.w - 1) 1 = some v) ∧
    (∃ v, centre33.Alive centre33.w 1 = some v ∧ centre33.Alive 0 1 = some v) ∧
    (∃ v, centre33.Alive 1 (-1) = some v ∧ centre33.Alive 1 (centre33.h - 1) = some v) ∧
    (∃ v, centre33.Alive 1 centre33.h = some v ∧ centre33.Alive 1 0 = some v) :=
  Alive_wraps_at_edges centre33 (by decide) (by decide) (by decide) 1 1
    (by decide) (by decide) (by decide) (by decide)

/-! ### C2: the decision of `Next` -/

/-- C2 (failing input): `Next` with search radius 3 at cell `(0, 0)` of the 2x2
board panics for every draw: the read `Alive(-3, -3)` leaves the one period that
`Alive` corrects. -/
theorem Next_radius_three_panics (R : ℚ) : full22.Next 0 0 3 stepInfluence R = none := by
  have h : full22.neighbors 0 0 3 stepInfluence = none := by decide!
  simp [Field.Next, h]

/-! ### C5: `Set` does not normalise -/

/-- C5 (refuted as stated): on the 3x3 dead board `Set(-1, 0, true)` panics, while
`Set(W-1, 0, true)` writes the cell `(2, 0)`. -/
theorem Set_negative_column_panics :
    dead33.Set (-1) 0 true = none ∧
      dead33.Set (dead33.w - 1) 0 true =
        some { s := [[false, false, true], [false, false, false], [false, false, false]],
               w := 3, h := 3 } := by
  decide

theorem Set_out_of_range (f : Field) (hs : f.Shaped) {x y : Int} (b : Bool)
    (h : ¬ (0 ≤ x ∧ x < f.w ∧ 0 ≤ y ∧ y < f.h)) : f.Set x y b = none := by
  obtain ⟨hlen, hrows⟩ := hs
  unfold Field.Set
  by_cases hy : 0 ≤ y ∧ y < f.h
  · obtain ⟨row, hrow, hget⟩ := index?_of_range f.s hy.1 (by omega)
    have hrl : (row.length : Int) = f.w := hrows row (List.getElem?_mem hget)
    have hx : ¬ (0 ≤ x ∧ x < (row.length : Int)) := by
      rw [hrl]; intro hx; exact h ⟨hx.1, hx.2, hy.1, hy.2⟩
    simp [hrow, setIndex?, hx]
  · have hnone : index? f.s y = none := by
      unfold index?
      by_cases h0 : 0 ≤ y
      · have : f.s.length ≤ y.toNat := by omega
        simp [h0, List.getElem?_eq_none this]
      · simp [h0]
    simp [hnone]

/-- C5 (amended): `Set` writes at the raw coordinates.  On a well-formed grid of
width `W` and height `H`, `Set(x, y, b)` succeeds exactly when
`0 <= x < W` and `0 <= y < H`; then it keeps the grid well formed and
`Alive(x, y)` reads `b` afterwards. -/
theorem Set_succeeds_iff_in_range (f : Field) (hf : f.WellFormed) (x y : Int) (b : Bool) :
    ((∃ f', f.Set x y b = some f') ↔ (0 ≤ x ∧ x < f.w ∧ 0 ≤ y ∧ y < f.h)) ∧
    (0 ≤ x ∧ x < f.w ∧ 0 ≤ y ∧ y < f.h →
      ∃ f', f.Set x y b = some f' ∧ f'.WellFormed ∧ f'.w = f.w ∧ f'.h = f.h ∧
        f'.Alive x y = some b) := by
  have key : 0 ≤ x ∧ x < f.w ∧ 0 ≤ y ∧ y < f.h →
      ∃ f', f.Set x y b = some f' ∧ f'.WellFormed ∧ f'.w = f.w ∧ f'.h = f.h ∧
        f'.Alive x y = some b := by
    rintro ⟨hx0, hx1, hy0, hy1⟩
    obtain ⟨f', hset, hs', hw', hh', hat, _⟩ := Set_inrange f hf.1 b hx0 hx1 hy0 hy1
    have hf' : f'.WellFormed := ⟨hs', by rw [hw']; exact hf.2.1, by rw [hh']; exact hf.2.2⟩
    refine ⟨f', hset, hf', hw', hh', ?_⟩
    rw [Alive_inrange f' hf' hx0 (by omega) hy0 (by omega), hat]
  refine ⟨⟨?_, ?_⟩, key⟩
  · rintro ⟨f', hset⟩
    by_contra hr
    rw [Set_out_of_range f hf.1 b hr] at hset
    exact Option.noConfusion hset
  · intro hr
    obtain ⟨f', hset, _⟩ := key hr
    exact ⟨f', hset⟩

theorem Set_succeeds_iff_in_range_witness :
    ((∃ f', dead33.Set 2 0 true = some f') ↔
      (0 ≤ (2 : Int) ∧ 2 < dead33.w ∧ 0 ≤ (0 : Int) ∧ 0 < dead33.h)) ∧
    (0 ≤ (2 : Int) ∧ 2 < dead33.w ∧ 0 ≤ (0 : Int) ∧ 0 < dead33.h →
      ∃ f', dead33.Set 2 0 true = some f' ∧ f'.WellFormed ∧ f'.w = dead33.w ∧
        f'.h = dead33.h ∧ f'.Alive 2 0 = some true) :=
  Set_succeeds_iff_in_range dead33 (by decide) 2 0 true

/-! ### C6: `Alive` below one period -/

/-- C6 (failing input): on the 2x2 board `Alive(-3, 0)` panics (`-3 + 2 = -1`,
`-1 % 2 = -1`, index out of range), although the cell at the non-negative residues
`(-3 mod 2, 0 mod 2) = (1, 0)` exists and is alive. -/
theorem Alive_below_one_period_panics :
    full22.Alive (-3) 0 = none ∧ full22.at? ((-3) % full22.w) (0 % full22.h) = some true := by
  decide

/-! ### C8: all-dead stability -/

theorem influenceSum_dead (f : Field) (hw : 0 < f.w) (hh : 0 < f.h)
    (hdead : ∀ x y : Int, 0 ≤ x → x < f.w → 0 ≤ y → y < f.h → f.at? x y = some false)
    (x y r : Int) (influence : Int → Int → ℚ) : influenceSum f x y r influence = 0 := by
  unfold influenceSum
  apply List.sum_eq_zero
  intro q hq
  obtain ⟨i, _, rfl⟩ := List.mem_map.1 hq
  apply List.sum_eq_zero
  intro q hq
  obtain ⟨j, _, rfl⟩ := List.mem_map.1 hq
  rw [hdead _ _ (Int.emod_nonneg (x + i) hw.ne') (Int.emod_lt_of_pos (x + i) hw)
    (Int.emod_nonneg (y + j) hh.ne') (Int.emod_lt_of_pos (y + j) hh)]
  simp

theorem truncate_zero : truncate 0 = 0 := by decide!

/-- C8: on a well-formed engine with `w, h >= 1` whose current grid has every cell
dead, for every sequence of draws and whatever the scratch grid holds, `Step`
returns and every cell of the new current grid is dead. -/
theorem Step_all_dead_stays_dead (l : Life) (hl : l.WellFormed) (hw : 1 ≤ l.w) (hh : 1 ≤ l.h)
    (hdead : ∀ x y : Int, 0 ≤ x → x < l.w → 0 ≤ y → y < l.h → l.a.Alive x y = some false)
    (src : Rand) (c : Nat) :
    ∃ l' c', l.Step src c = some (l', c') ∧
      ∀ x y : Int, 0 ≤ x → x < l.w → 0 ≤ y → y < l.h → l'.a.Alive x y = some false := by
  obtain ⟨b, hrun, hb, hbw, hbh, hcells⟩ := Step_run l hl (by omega) (by omega) src c
  have haw : l.a.w = l.w := hl.2.2.1
  have hah : l.a.h = l.h := hl.2.2.2.1
  have hat : ∀ x y : Int, 0 ≤ x → x < l.a.w → 0 ≤ y → y < l.a.h →
      l.a.at? x y = some false := by
    intro x y hx0 hx1 hy0 hy1
    rw [← Alive_inrange l.a hl.1 hx0 hx1 hy0 hy1]
    exact hdead x y hx0 (by omega) hy0 (by omega)
  refine ⟨{ l with a := b, b := l.a }, _, hrun, ?_⟩
  intro x y hx0 hx1 hy0 hy1
  show b.Alive x y = some false
  have hc := hcells x.toNat y.toNat (by omega) (by omega)
  rw [Int.toNat_of_nonneg hx0, Int.toNat_of_nonneg hy0] at hc
  obtain ⟨v0, hv0, hspec⟩ := Next_spec l.a hl.1 (by omega) (by omega) hx0
    (by omega : x < l.a.w) hy0 (by omega : y < l.a.h) (r := 2) (by norm_num) (by omega)
    (by omega) stepInfluence (src.float64 (c + y.toNat * l.w.toNat + x.toNat))
  rw [hat x y hx0 (by omega) hy0 (by omega)] at hv0
  rw [influenceSum_dead l.a (by omega) (by omega) hat, truncate_zero] at hspec
  rw [Alive_inrange b hb hx0 (by omega) hy0 (by omega), hc, hspec,
    ← Option.some.inj hv0]
  simp [decide_next]

theorem Step_all_dead_stays_dead_witness :
    ∃ l' c', deadLife33.Step zeroRand 0 = some (l', c') ∧
      ∀ x y : Int, 0 ≤ x → x < deadLife33.w → 0 ≤ y → y < deadLife33.h →
        l'.a.Alive x y = some false :=
  Step_all_dead_stays_dead deadLife33 (by decide) (by decide) (by decide)
    (by
      intro x y hx0 hx1 hy0 hy1
      have hx : x < 3 := hx1
      have hy : y < 3 := hy1
      interval_cases x <;> interval_cases y <;> decide)
    zeroRand 0

/-! ### C9: the 3x3 board with the centre alive -/

/-- C9 (refuted as stated): on the 3x3 board whose only alive cell is the centre,
the corner `(0, 0)` reaches the centre through four offsets, its influence sum is
`3`, its truncated sum is `3` and its probability is the literal `0.95`; the edge
cell `(0, 1)` reaches the centre through two offsets and its sum is `1.75`. -/
theorem corner_reaches_centre_four_times :
    aliveOffsets centre33 0 0 2 = [(-2, -2), (-2, 1), (1, -2), (1, 1)] ∧
    centre33.neighbors 0 0 2 stepInfluence = some 3 ∧
    truncate 3 = 3 ∧ aliveProbability 3 = lit_0_95 ∧ lit_0_95 ≠ lit_0_1 ∧
    aliveOffsets centre33 0 1 2 = [(-2, 0), (1, 0)] ∧
    centre33.neighbors 0 1 2 stepInfluence = some (7 / 4) := by
  refine ⟨by decide!, by decide!, by decide!, by decide!, by decide!, by decide!, by decide!⟩

/-- C9 (amended): on the 3x3 board whose only alive cell is the centre `(1, 1)`,
with radius 2 and toroidal wraparound, each of the four edge cells reaches the
centre through exactly two offsets, its influence sum is `1 + 0.75 = 1.75`, its
truncated sum is 1 and its probability is the literal `0.1`; each of the four
corner cells reaches the centre through exactly four offsets, its influence sum is
`1 + 0.75 + 0.75 + 0.5 = 3`, its truncated sum is 3 and its probability is the
literal `0.95`. -/
theorem centre33_neighbour_sums :
    ((aliveOffsets centre33 1 0 2).length = 2 ∧
      centre33.neighbors 1 0 2 stepInfluence = some (7 / 4)) ∧
    ((aliveOffsets centre33 0 1 2).length = 2 ∧
      centre33.neighbors 0 1 2 stepInfluence = some (7 / 4)) ∧
    ((aliveOffsets centre33 2 1 2).length = 2 ∧
      centre33.neighbors 2 1 2 stepInfluence = some (7 / 4)) ∧
    ((aliveOffsets centre33 1 2 2).length = 2 ∧
      centre33.neighbors 1 2 2 stepInfluence = some (7 / 4)) ∧
    (truncate (7 / 4) = 1 ∧ aliveProbability 1 = lit_0_1) ∧
    ((aliveOffsets centre33 0 0 2).length = 4 ∧
      centre33.neighbors 0 0 2 stepInfluence = some 3) ∧
    ((aliveOffsets centre33 2 0 2).length = 4 ∧
      centre33.neighbors 2 0 2 stepInfluence = some 3) ∧
    ((aliveOffsets centre33 0 2 2).length = 4 ∧
      centre33.neighbors 0 2 2 stepInfluence = some 3) ∧
    ((aliveOffsets centre33 2 2 2).length = 4 ∧
      centre33.neighbors 2 2 2 stepInfluence = some 3) ∧
    (truncate 3 = 3 ∧ aliveProbability 3 = lit_0_95) := by
  decide!

/-! ### C10: symmetry of the influence function -/

/-- C10: for all integers `dx`, `dy` the influence function that `Step` uses
satisfies `influence(dx, dy) = influence(-dx, dy) = influence(dx, -dy) =
influence(-dx, -dy)`. -/
theorem stepInfluence_symmetric (dx dy : Int) :
    stepInfluence dx dy = stepInfluence (-dx) dy ∧
    stepInfluence dx dy = stepInfluence dx (-dy) ∧
    stepInfluence dx dy = stepInfluence (-dx) (-dy) := by
  simp [stepInfluence, abs_neg]

/-! ### C7: construction with non-positive dimensions -/

theorem foldlM_range_none {σ : Type} (f : σ → Nat → Option σ) (n : Nat) (hn : 0 < n)
    (s0 : σ) (h : ∀ s i, f s i = none) : (List.range n).foldlM f s0 = none := by
  obtain ⟨m, rfl⟩ : ∃ m, n = m + 1 := ⟨n - 1, by omega⟩
  rw [List.range_succ_eq_map, List.foldlM_cons, h]
  rfl

/-- The allocation loop of `NewField` with a non-negative width fills every row. -/
theorem allocRows_run (w : Int) (hw : 0 ≤ w) (n : Nat) :
    (List.range n).foldlM (allocRow w) (List.replicate n ([] : List Bool)) =
      some (List.replicate n (List.replicate w.toNat false)) := by
  obtain ⟨s, hrun, hlen, hrows⟩ := foldlM_range_inv (allocRow w)
    (fun k s => s.length = n ∧ ∀ i, i < k → s[i]? = some (List.replicate w.toNat false))
    n (List.replicate n ([] : List Bool))
    ⟨by simp, fun i hi => absurd hi (Nat.not_lt_zero i)⟩
    (by
      intro k s hk hinv
      obtain ⟨hl, hr⟩ := hinv
      refine ⟨s.set k (List.replicate w.toNat false), ?_, by simp [hl], ?_⟩
      · have h1 : ¬ w < 0 := by omega
        have h2 : (k : Int) < (s.length : Int) := by omega
        simp [allocRow, makeSlice, h1, setIndex?, h2]
      · intro i hi
        rw [List.getElem?_set]
        by_cases hik : k = i
        · subst hik
          simp [hl, hk]
        · simp only [hik, if_false]
          exact hr i (by omega))
  rw [hrun]
  congr 1
  rw [List.eq_replicate_iff]
  refine ⟨hlen, ?_⟩
  intro b hb
  obtain ⟨i, hi⟩ := List.mem_iff_getElem?.1 hb
  have hil : i < s.length := by
    by_contra hcon
    rw [List.getElem?_eq_none (by omega)] at hi
    exact Option.noConfusion hi
  rw [hrows i (by omega)] at hi
  exact (Option.some.inj hi).symm

/-- The result of `NewField`: a panic for a negative slice length, otherwise `h`
rows of `w` dead cells. -/
theorem NewField_eq (w h : Int) :
    NewField w h =
      if h < 0 ∨ (0 < h ∧ w < 0) then none
      else some { s := List.replicate h.toNat (List.replicate w.toNat false),
                  w := w, h := h } := by
  unfold NewField makeSlice
  by_cases hh : h < 0
  · simp [hh]
  · by_cases hw : w < 0
    · by_cases h0 : 0 < h
      · have hnone : ∀ s i, allocRow w s i = none := by
          intro s i
          simp [allocRow, makeSlice, hw]
        have hpos : 0 < h.toNat := by omega
        simp [hh, hw, h0, foldlM_range_none (allocRow w) h.toNat hpos _ hnone]
      · have hz : h = 0 := by omega
        subst hz
        simp
    · have hcond : ¬ (h < 0 ∨ (0 < h ∧ w < 0)) := by omega
      simp only [hh, if_false, hcond, Option.bind_eq_bind, Option.some_bind,
        List.length_replicate]
      rw [allocRows_run w (by omega) h.toNat]
      simp [hw]

theorem NewField_shaped {w h : Int} {f : Field} (hf : NewField w h = some f) :
    f.Shaped ∧ f.w = w ∧ f.h = h ∧ 0 ≤ h := by
  rw [NewField_eq] at hf
  split_ifs at hf with hc
  have hf' := Option.some.inj hf
  subst hf'
  refine ⟨⟨?_, ?_⟩, rfl, rfl, by omega⟩
  · simp only [List.length_replicate]
    omega
  · intro row hrow
    obtain ⟨hne, hrow'⟩ := List.mem_replicate.1 hrow
    rw [hrow']
    simp only [List.length_replicate]
    omega

/-- The seeding loop of `NewLife` on positive dimensions returns and keeps the shape. -/
theorem seedLoop_run (w h : Int) (hw : 0 < w) (hh : 0 < h) (src : Rand) (hsrc : src.Valid)
    (n : Nat) (a0 : Field) (c : Nat) (ha : a0.Shaped) (haw : a0.w = w) (hah : a0.h = h) :
    ∃ st, (List.range n).foldlM (seedCell w h src) (a0, c) = some st ∧
      st.1.Shaped ∧ st.1.w = w ∧ st.1.h = h :=
  foldlM_range_inv (seedCell w h src)
    (fun _ st => st.1.Shaped ∧ st.1.w = w ∧ st.1.h = h) n (a0, c) ⟨ha, haw, hah⟩
    (by
      rintro k ⟨a, c⟩ _ ⟨hs, hw', hh'⟩
      simp only at hs hw' hh'
      obtain ⟨hx0, hx1⟩ := hsrc.2 c w hw
      obtain ⟨hy0, hy1⟩ := hsrc.2 (c + 1) h hh
      obtain ⟨a', hset, hs2, hw2, hh2, _⟩ := Set_inrange a hs true hx0
        (by rw [hw']; exact hx1) hy0 (by rw [hh']; exact hy1)
      refine ⟨(a', c + 1 + 1), ?_, hs2, hw2.trans hw', hh2.trans hh'⟩
      have h1 : ¬ w ≤ 0 := by omega
      have h2 : ¬ h ≤ 0 := by omega
      simp [seedCell, Rand.Intn, h1, h2, hset])

theorem wrapInt_zero : wrapInt 0 = 0 := by decide

/-- C7 (refuted as stated): `NewField(0, 5)`, `NewField(5, 0)`, `NewLife(0, 5)` and
`NewLife(5, 0)` return a value: a grid of five empty rows, or of no rows. -/
theorem zero_dimension_is_constructed :
    NewField 0 5 = some { s := [[], [], [], [], []], w := 0, h := 5 } ∧
    NewField 5 0 = some { s := [], w := 5, h := 0 } ∧
    NewLife 0 5 zeroRand 0 =
      some ({ a := { s := [[], [], [], [], []], w := 0, h := 5 },
              b := { s := [[], [], [], [], []], w := 0, h := 5 }, w := 0, h := 5 }, 0) ∧
    NewLife 5 0 zeroRand 0 =
      some ({ a := { s := [], w := 5, h := 0 }, b := { s := [], w := 5, h := 0 },
              w := 5, h := 0 }, 0) := by
  decide

/-- C7 (amended): construction has no guard on its dimensions.  `NewField(w, h)` and
`NewLife(w, h)` fail exactly when a negative length reaches `make`: when `h < 0`, or
when `h > 0` and `w < 0`.  With `w = 0` or `h = 0` they return a grid without cells. -/
theorem construction_fails_iff_negative_length (w h : Int) (src : Rand) (hsrc : src.Valid)
    (c : Nat) :
    (NewField w h = none ↔ (h < 0 ∨ (0 < h ∧ w < 0))) ∧
    (NewLife w h src c = none ↔ (h < 0 ∨ (0 < h ∧ w < 0))) := by
  have hfield : NewField w h = none ↔ (h < 0 ∨ (0 < h ∧ w < 0)) := by
    rw [NewField_eq]
    split_ifs with hc <;> simp [hc]
  refine ⟨hfield, ?_⟩
  by_cases hc : h < 0 ∨ (0 < h ∧ w < 0)
  · have hn := hfield.2 hc
    simp [NewLife, hn, hc]
  · have hsome : ∃ f, NewField w h = some f := by
      cases hf : NewField w h with
      | none => exact absurd (hfield.1 hf) hc
      | some f => exact ⟨f, rfl⟩
    obtain ⟨f, hf⟩ := hsome
    obtain ⟨hs, hfw, hfh, _⟩ := NewField_shaped hf
    have hloop : ∃ st, (List.range (Int.tdiv (wrapInt (w * h)) 4).toNat).foldlM
        (seedCell w h src) (f, c) = some st := by
      by_cases hpos : 0 < w ∧ 0 < h
      · obtain ⟨st, hst, _⟩ := seedLoop_run w h hpos.1 hpos.2 src hsrc
          (Int.tdiv (wrapInt (w * h)) 4).toNat f c hs hfw hfh
        exact ⟨st, hst⟩
      · have hz : w * h = 0 := by
          rcases Int.lt_trichotomy h 0 with h1 | h1 | h1
          · omega
          · rw [h1, mul_zero]
          · have hw0 : w = 0 := by omega
            rw [hw0, zero_mul]
        rw [hz, wrapInt_zero]
        exact ⟨(f, c), by simp⟩
    obtain ⟨st, hst⟩ := hloop
    have hne : NewLife w h src c ≠ none := by
      simp [NewLife, hf, hst]
    exact ⟨fun hn => absurd hn hne, fun hn => absurd hn hc⟩

theorem construction_fails_iff_negative_length_witness :
    (NewField 0 5 = none ↔ ((5 : Int) < 0 ∨ ((0 : Int) < 5 ∧ (0 : Int) < 0))) ∧
    (NewLife 0 5 zeroRand 0 = none ↔ ((5 : Int) < 0 ∨ ((0 : Int) < 5 ∧ (0 : Int) < 0))) :=
  construction_fails_iff_negative_length 0 5 zeroRand
    ⟨fun _ => ⟨le_refl (0 : ℚ), zero_lt_one⟩, fun _ _ hn => ⟨le_refl (0 : Int), hn⟩⟩ 0

/-! ### C11: the influence function as a table -/

theorem influenceMap_natCast (n : Nat) : influenceMap (n : Int) = weight n := by
  rcases n with _ | _ | _ | _ | _ | n
  · rfl
  · rfl
  · rfl
  · rfl
  · rfl
  · have h : weight (n + 1 + 1 + 1 + 1 + 1) = 0 := by
      unfold weight
      simp
    rw [h]
    unfold influenceMap
    split <;> first | rfl | omega

/-- C11: for all integers `dx`, `dy` the influence function of `Step` is
`(weight(|dx|) + weight(|dy|)) / 2` for the table `0->1, 1->1, 2->0.5, 3->0.25,
4->0.125` (0 for any other distance); hence it is 1 when `|dx|, |dy| <= 1`, 0.75
when exactly one of them is 2 and the other at most 1, and 0.5 when both are 2. -/
theorem stepInfluence_table (dx dy : Int) :
    stepInfluence dx dy = (weight dx.natAbs + weight dy.natAbs) / 2 ∧
    (dx.natAbs ≤ 1 ∧ dy.natAbs ≤ 1 → stepInfluence dx dy = 1) ∧
    ((dx.natAbs = 2 ∧ dy.natAbs ≤ 1) ∨ (dx.natAbs ≤ 1 ∧ dy.natAbs = 2) →
      stepInfluence dx dy = 3 / 4) ∧
    (dx.natAbs = 2 ∧ dy.natAbs = 2 → stepInfluence dx dy = 1 / 2) := by
  have key : stepInfluence dx dy = (weight dx.natAbs + weight dy.natAbs) / 2 := by
    unfold stepInfluence
    simp only [Int.abs_eq_natAbs, influenceMap_natCast]
  have hle : ∀ n : Nat, n ≤ 1 → weight n = 1 := by
    intro n hn
    interval_cases n <;> simp [weight]
  have h2 : weight 2 = 1 / 2 := by simp [weight]
  refine ⟨key, ?_, ?_, ?_⟩
  · rintro ⟨hx, hy⟩
    rw [key, hle _ hx, hle _ hy]
    norm_num
  · rintro (⟨hx, hy⟩ | ⟨hx, hy⟩)
    · rw [key, hx, h2, hle _ hy]
      norm_num
    · rw [key, hy, h2, hle _ hx]
      norm_num
  · rintro ⟨hx, hy⟩
    rw [key, hx, hy, h2]
    norm_num

/-! ### C12: the buffer swap -/

/-- C12: on a well-formed engine with `w, h >= 1`, `Step` returns an engine whose
scratch grid is the pre-step current grid (the same value, hence equal cell for
cell), whose two grids are well formed with `h` rows of `w` cells, and whose `w`
and `h` are unchanged. -/
theorem Step_swaps_buffers (l : Life) (hl : l.WellFormed) (hw : 1 ≤ l.w) (hh : 1 ≤ l.h)
    (src : Rand) (c : Nat) :
    ∃ l' c', l.Step src c = some (l', c') ∧ l'.b = l.a ∧
      (∀ x y : Int, 0 ≤ x → x < l.w → 0 ≤ y → y < l.h → l'.b.Alive x y = l.a.Alive x y) ∧
      l'.WellFormed ∧ l'.w = l.w ∧ l'.h = l.h := by
  obtain ⟨b, hrun, hb, hbw, hbh, _⟩ := Step_run l hl (by omega) (by omega) src c
  refine ⟨{ l with a := b, b := l.a }, _, hrun, rfl, fun _ _ _ _ _ _ => rfl, ?_, rfl, rfl⟩
  exact ⟨hb, hl.1, hbw, hbh, hl.2.2.1, hl.2.2.2.1⟩

theorem Step_swaps_buffers_witness :
    ∃ l' c', life33.Step zeroRand 0 = some (l', c') ∧ l'.b = life33.a ∧
      (∀ x y : Int, 0 ≤ x → x < life33.w → 0 ≤ y → y < life33.h →
        l'.b.Alive x y = life33.a.Alive x y) ∧
      l'.WellFormed ∧ l'.w = life33.w ∧ l'.h = life33.h :=
  Step_swaps_buffers life33 (by decide) (by decide) (by decide) zeroRand 0

/-! ### C16: `NewField` -/

/-- C16: for `w >= 1` and `h >= 1`, `NewField(w, h)` returns a grid with exactly `h`
rows of exactly `w` cells, every cell dead, with recorded dimensions `w` and `h`;
for dimensions in the representable range `Alive(x, y)` returns false at every
in-range cell. -/
theorem NewField_all_dead (w h : Int) (hw : 1 ≤ w) (hh : 1 ≤ h) :
    ∃ f, NewField w h = some f ∧ f.w = w ∧ f.h = h ∧
      f.s = List.replicate h.toNat (List.replicate w.toNat false) ∧
      (f.s.length : Int) = h ∧ (∀ row ∈ f.s, (row.length : Int) = w) ∧
      (∀ row ∈ f.s, ∀ cell ∈ row, cell = false) ∧
      (w < 2 ^ 61 → h < 2 ^ 61 →
        ∀ x y : Int, 0 ≤ x → x < w → 0 ≤ y → y < h → f.Alive x y = some false) := by
  have hc : ¬ (h < 0 ∨ (0 < h ∧ w < 0)) := by omega
  have hf : NewField w h =
      some { s := List.replicate h.toNat (List.replicate w.toNat false), w := w, h := h } := by
    rw [NewField_eq, if_neg hc]
  obtain ⟨hs, _, _, _⟩ := NewField_shaped hf
  refine ⟨_, hf, rfl, rfl, rfl, hs.1, hs.2, ?_, ?_⟩
  · intro row hrow cell hcell
    rw [(List.mem_replicate.1 hrow).2] at hcell
    exact (List.mem_replicate.1 hcell).2
  · intro hwb hhb x y hx0 hx1 hy0 hy1
    rw [Alive_inrange _ ⟨hs, hwb, hhb⟩ hx0 hx1 hy0 hy1]
    have hy : y.toNat < h.toNat := by omega
    have hx : x.toNat < w.toNat := by omega
    simp [Field.at?, index?, hx0, hy0, List.getElem?_replicate, hx, hy]

theorem NewField_all_dead_witness :
    ∃ f, NewField 3 2 = some f ∧ f.w = 3 ∧ f.h = 2 ∧
      f.s = List.replicate (2 : Int).toNat (List.replicate (3 : Int).toNat false) ∧
      (f.s.length : Int) = 2 ∧ (∀ row ∈ f.s, (row.length : Int) = 3) ∧
      (∀ row ∈ f.s, ∀ cell ∈ row, cell = false) ∧
      ((3 : Int) < 2 ^ 61 → (2 : Int) < 2 ^ 61 →
        ∀ x y : Int, 0 ≤ x → x < 3 → 0 ≤ y → y < 2 → f.Alive x y = some false) :=
  NewField_all_dead 3 2 (by decide) (by decide)

/-! ### C17: the frame of `Set` -/

/-- C17: on a well-formed grid, for in-range `(x, y)` and every `b`, `Set(x, y, b)`
returns; afterwards `Alive(x, y) = b`, `Alive` is unchanged at every other
in-range cell, and the dimensions and the shape are unchanged. -/
theorem Set_writes_one_cell (f : Field) (hf : f.WellFormed) (x y : Int) (b : Bool)
    (hx0 : 0 ≤ x) (hx1 : x < f.w) (hy0 : 0 ≤ y) (hy1 : y < f.h) :
    ∃ f', f.Set x y b = some f' ∧ f'.Alive x y = some b ∧
      (∀ x' y' : Int, 0 ≤ x' → x' < f.w → 0 ≤ y' → y' < f.h → (x' ≠ x ∨ y' ≠ y) →
        f'.Alive x' y' = f.Alive x' y') ∧
      f'.w = f.w ∧ f'.h = f.h ∧ f'.WellFormed := by
  obtain ⟨f', hset, hs', hw', hh', hat, hframe⟩ := Set_inrange f hf.1 b hx0 hx1 hy0 hy1
  have hf' : f'.WellFormed := ⟨hs', by rw [hw']; exact hf.2.1, by rw [hh']; exact hf.2.2⟩
  refine ⟨f', hset, ?_, ?_, hw', hh', hf'⟩
  · rw [Alive_inrange f' hf' hx0 (by omega) hy0 (by omega), hat]
  · intro x' y' hx0' hx1' hy0' hy1' hne
    rw [Alive_inrange f' hf' hx0' (by omega) hy0' (by omega),
      Alive_inrange f hf hx0' hx1' hy0' hy1', hframe x' y' hne]

theorem Set_writes_one_cell_witness :
    ∃ f', centre33.Set 2 0 true = some f' ∧ f'.Alive 2 0 = some true ∧
      (∀ x' y' : Int, 0 ≤ x' → x' < centre33.w → 0 ≤ y' → y' < centre33.h →
        (x' ≠ 2 ∨ y' ≠ 0) → f'.Alive x' y' = centre33.Alive x' y') ∧
      f'.w = centre33.w ∧ f'.h = centre33.h ∧ f'.WellFormed :=
  Set_writes_one_cell centre33 (by decide) 2 0 true (by decide) (by decide) (by decide)
    (by decide)

/-! ### C18: `Step` has no failure mode -/

/-- C18: on a well-formed engine with `w, h >= 1` (also `w` or `h` equal to 1 or 2),
`Step` returns; every neighbour read `Alive(x+i, y+j)` with `-2 <= i, j <= 2` at an
in-range cell returns, and every in-range `Set` on the scratch grid returns. -/
theorem Step_never_panics (l : Life) (hl : l.WellFormed) (hw : 1 ≤ l.w) (hh : 1 ≤ l.h)
    (src : Rand) (c : Nat) :
    (∃ l' c', l.Step src c = some (l', c')) ∧
    (∀ x y i j : Int, 0 ≤ x → x < l.w → 0 ≤ y → y < l.h →
      -2 ≤ i → i ≤ 2 → -2 ≤ j → j ≤ 2 → ∃ v, l.a.Alive (x + i) (y + j) = some v) ∧
    (∀ x y : Int, 0 ≤ x → x < l.w → 0 ≤ y → y < l.h →
      ∀ v, ∃ b', l.b.Set x y v = some b') := by
  obtain ⟨ha, hb, haw, hah, hbw, hbh⟩ := hl
  refine ⟨?_, ?_, ?_⟩
  · obtain ⟨b, hrun, _⟩ := Step_run l ⟨ha, hb, haw, hah, hbw, hbh⟩ (by omega) (by omega) src c
    exact ⟨_, _, hrun⟩
  · intro x y i j hx0 hx1 hy0 hy1 hi0 hi1 hj0 hj1
    obtain ⟨v, hv, _⟩ := Alive_offset l.a ha (by omega) (by omega) (x := x) (y := y) (r := 2)
      hx0 (by omega) hy0 (by omega) (by norm_num) (by omega) (by omega)
      (mem_offsets.2 ⟨hi0, hi1⟩) (mem_offsets.2 ⟨hj0, hj1⟩)
    have hwb := ha.2.1
    have hhb := ha.2.2
    rw [wrapInt_of_range (by omega) (by omega), wrapInt_of_range (by omega) (by omega)] at hv
    exact ⟨v, hv⟩
  · intro x y hx0 hx1 hy0 hy1 v
    obtain ⟨b', hset, _⟩ := Set_inrange l.b hb.1 v hx0 (by omega) hy0 (by omega)
    exact ⟨b', hset⟩

theorem Step_never_panics_witness :
    (∃ l' c', life21.Step zeroRand 0 = some (l', c')) ∧
    (∀ x y i j : Int, 0 ≤ x → x < life21.w → 0 ≤ y → y < life21.h →
      -2 ≤ i → i ≤ 2 → -2 ≤ j → j ≤ 2 → ∃ v, life21.a.Alive (x + i) (y + j) = some v) ∧
    (∀ x y : Int, 0 ≤ x → x < life21.w → 0 ≤ y → y < life21.h →
      ∀ v, ∃ b', life21.b.Set x y v = some b') :=
  Step_never_panics life21 (by decide) (by decide) (by decide) zeroRand 0

/-! ### C19: determinism of `Step` -/

theorem influenceSum_congr (f g : Field) (hw : 0 < f.w) (hh : 0 < f.h)
    (hwe : f.w = g.w) (hhe : f.h = g.h)
    (hcell : ∀ x y : Int, 0 ≤ x → x < f.w → 0 ≤ y → y < f.h → f.at? x y = g.at? x y)
    (x y r : Int) (influence : Int → Int → ℚ) :
    influenceSum f x y r influence = influenceSum g x y r influence := by
  unfold influenceSum
  congr 1
  apply List.map_congr_left
  intro i _
  congr 1
  apply List.map_congr_left
  intro j _
  rw [← hwe, ← hhe, hcell _ _ (Int.emod_nonneg (x + i) hw.ne') (Int.emod_lt_of_pos (x + i) hw)
    (Int.emod_nonneg (y + j) hh.ne') (Int.emod_lt_of_pos (y + j) hh)]

/-- C19: two well-formed engines with the same dimensions `w, h >= 1` and the same
current-grid contents (their scratch grids may differ), fed the same draws, both
return from `Step` with current grids that are identical cell for cell. -/
theorem Step_deterministic (l1 l2 : Life) (h1 : l1.WellFormed) (h2 : l2.WellFormed)
    (hw : 1 ≤ l1.w) (hh : 1 ≤ l1.h) (hwe : l1.w = l2.w) (hhe : l1.h = l2.h)
    (hcur : ∀ x y : Int, 0 ≤ x → x < l1.w → 0 ≤ y → y < l1.h →
      l1.a.Alive x y = l2.a.Alive x y)
    (src : Rand) (c : Nat) :
    ∃ l1' l2' c', l1.Step src c = some (l1', c') ∧ l2.Step src c = some (l2', c') ∧
      ∀ x y : Int, 0 ≤ x → x < l1.w → 0 ≤ y → y < l1.h →
        ∃ v, l1'.a.Alive x y = some v ∧ l2'.a.Alive x y = some v := by
  obtain ⟨b1, hrun1, hb1, hbw1, hbh1, hcells1⟩ := Step_run l1 h1 (by omega) (by omega) src c
  obtain ⟨b2, hrun2, hb2, hbw2, hbh2, hcells2⟩ := Step_run l2 h2 (by omega) (by omega) src c
  have haw1 : l1.a.w = l1.w := h1.2.2.1
  have hah1 : l1.a.h = l1.h := h1.2.2.2.1
  have haw2 : l2.a.w = l2.w := h2.2.2.1
  have hah2 : l2.a.h = l2.h := h2.2.2.2.1
  have hat : ∀ x y : Int, 0 ≤ x → x < l1.a.w → 0 ≤ y → y < l1.a.h →
      l1.a.at? x y = l2.a.at? x y := by
    intro x y hx0 hx1 hy0 hy1
    rw [← Alive_inrange l1.a h1.1 hx0 hx1 hy0 hy1,
      ← Alive_inrange l2.a h2.1 hx0 (by omega) hy0 (by omega)]
    exact hcur x y hx0 (by omega) hy0 (by omega)
  refine ⟨{ l1 with a := b1, b := l1.a }, { l2 with a := b2, b := l2.a }, _, hrun1, ?_, ?_⟩
  · rw [hrun2, hwe, hhe]
  · intro x y hx0 hx1 hy0 hy1
    show ∃ v, b1.Alive x y = some v ∧ b2.Alive x y = some v
    have hc1 := hcells1 x.toNat y.toNat (by omega) (by omega)
    have hc2 := hcells2 x.toNat y.toNat (by omega) (by omega)
    rw [Int.toNat_of_nonneg hx0, Int.toNat_of_nonneg hy0] at hc1 hc2
    obtain ⟨v1, hv1, hs1⟩ := Next_spec l1.a h1.1 (by omega) (by omega) hx0
      (by omega : x < l1.a.w) hy0 (by omega : y < l1.a.h) (r := 2) (by norm_num) (by omega)
      (by omega) stepInfluence (src.float64 (c + y.toNat * l1.w.toNat + x.toNat))
    obtain ⟨v2, hv2, hs2⟩ := Next_spec l2.a h2.1 (by omega) (by omega) hx0
      (by omega : x < l2.a.w) hy0 (by omega : y < l2.a.h) (r := 2) (by norm_num) (by omega)
      (by omega) stepInfluence (src.float64 (c + y.toNat * l2.w.toNat + x.toNat))
    have hv : v1 = v2 := by
      have h := hat x y hx0 (by omega) hy0 (by omega)
      rw [hv1, hv2] at h
      exact Option.some.inj h
    have hsum := influenceSum_congr l1.a l2.a (by omega) (by omega) (by omega) (by omega)
      hat x y 2 stepInfluence
    refine ⟨decide_next (truncate (influenceSum l1.a x y 2 stepInfluence)) v1
      (src.float64 (c + y.toNat * l1.w.toNat + x.toNat)), ?_, ?_⟩
    · rw [Alive_inrange b1 hb1 hx0 (by omega) hy0 (by omega), hc1, hs1]
    · rw [Alive_inrange b2 hb2 hx0 (by omega) hy0 (by omega), hc2, hs2, ← hsum, ← hv,
        ← hwe]

theorem Step_deterministic_witness :
    ∃ l1' l2' c', life33.Step zeroRand 0 = some (l1', c') ∧
      life33alt.Step zeroRand 0 = some (l2', c') ∧
      ∀ x y : Int, 0 ≤ x → x < life33.w → 0 ≤ y → y < life33.h →
        ∃ v, l1'.a.Alive x y = some v ∧ l2'.a.Alive x y = some v :=
  Step_deterministic life33 life33alt (by decide) (by decide) (by decide) (by decide)
    (by decide) (by decide) (fun _ _ _ _ _ _ => rfl) zeroRand 0

/-! ### C20: all-alive extinction -/

theorem influence_total :
    (((offsets 2).map (fun i =>
      ((offsets 2).map (fun j =>
        if j ≠ 0 ∨ i ≠ 0 then stepInfluence i j else 0)).sum)).sum : ℚ) = 19 := by
  decide!

theorem influenceSum_alive (f : Field) (hw : 0 < f.w) (hh : 0 < f.h)
    (halive : ∀ x y : Int, 0 ≤ x → x < f.w → 0 ≤ y → y < f.h → f.at? x y = some true)
    (x y : Int) : influenceSum f x y 2 stepInfluence = 19 := by
  rw [← influence_total]
  unfold influenceSum
  congr 1
  apply List.map_congr_left
  intro i _
  congr 1
  apply List.map_congr_left
  intro j _
  rw [halive _ _ (Int.emod_nonneg (x + i) hw.ne') (Int.emod_lt_of_pos (x + i) hw)
    (Int.emod_nonneg (y + j) hh.ne') (Int.emod_lt_of_pos (y + j) hh)]
  simp

theorem truncate_nineteen : truncate 19 = 19 := by decide!

/-- C20: on a well-formed engine with `w, h >= 1` whose current grid has every cell
alive, for every sequence of draws in `[0,1)`, every cell's influence sum is
`8*1 + 12*0.75 + 4*0.5 = 19`, which has no entry in the probability table
(probability 0), and after `Step` every cell of the current grid is dead. -/
theorem Step_all_alive_dies (l : Life) (hl : l.WellFormed) (hw : 1 ≤ l.w) (hh : 1 ≤ l.h)
    (halive : ∀ x y : Int, 0 ≤ x → x < l.w → 0 ≤ y → y < l.h → l.a.Alive x y = some true)
    (src : Rand) (hsrc : src.Valid) (c : Nat) :
    (∀ x y : Int, 0 ≤ x → x < l.w → 0 ≤ y → y < l.h →
      l.a.neighbors x y 2 stepInfluence = some 19) ∧
    aliveProbability (truncate 19) = 0 ∧
    ∃ l' c', l.Step src c = some (l', c') ∧
      ∀ x y : Int, 0 ≤ x → x < l.w → 0 ≤ y → y < l.h → l'.a.Alive x y = some false := by
  obtain ⟨b, hrun, hb, hbw, hbh, hcells⟩ := Step_run l hl (by omega) (by omega) src c
  have haw : l.a.w = l.w := hl.2.2.1
  have hah : l.a.h = l.h := hl.2.2.2.1
  have hat : ∀ x y : Int, 0 ≤ x → x < l.a.w → 0 ≤ y → y < l.a.h →
      l.a.at? x y = some true := by
    intro x y hx0 hx1 hy0 hy1
    rw [← Alive_inrange l.a hl.1 hx0 hx1 hy0 hy1]
    exact halive x y hx0 (by omega) hy0 (by omega)
  have hprob : aliveProbability (truncate 19) = 0 := by
    rw [truncate_nineteen]
    rfl
  refine ⟨?_, hprob, { l with a := b, b := l.a }, _, hrun, ?_⟩
  · intro x y hx0 hx1 hy0 hy1
    rw [neighbors_eq l.a hl.1 (by omega) (by omega) hx0 (by omega) hy0 (by omega)
      (by norm_num) (by omega) (by omega) stepInfluence,
      influenceSum_alive l.a (by omega) (by omega) hat]
  · intro x y hx0 hx1 hy0 hy1
    show b.Alive x y = some false
    have hc := hcells x.toNat y.toNat (by omega) (by omega)
    rw [Int.toNat_of_nonneg hx0, Int.toNat_of_nonneg hy0] at hc
    obtain ⟨v0, _, hspec⟩ := Next_spec l.a hl.1 (by omega) (by omega) hx0
      (by omega : x < l.a.w) hy0 (by omega : y < l.a.h) (r := 2) (by norm_num) (by omega)
      (by omega) stepInfluence (src.float64 (c + y.toNat * l.w.toNat + x.toNat))
    rw [influenceSum_alive l.a (by omega) (by omega) hat] at hspec
    rw [Alive_inrange b hb hx0 (by omega) hy0 (by omega), hc, hspec]
    have hR := (hsrc.1 (c + y.toNat * l.w.toNat + x.toNat)).1
    simp [decide_next, hprob, not_lt.2 hR]

theorem Step_all_alive_dies_witness :
    (∀ x y : Int, 0 ≤ x → x < fullLife22.w → 0 ≤ y → y < fullLife22.h →
      fullLife22.a.neighbors x y 2 stepInfluence = some 19) ∧
    aliveProbability (truncate 19) = 0 ∧
    ∃ l' c', fullLife22.Step zeroRand 0 = some (l', c') ∧
      ∀ x y : Int, 0 ≤ x → x < fullLife22.w → 0 ≤ y → y < fullLife22.h →
        l'.a.Alive x y = some false :=
  Step_all_alive_dies fullLife22 (by decide) (by decide) (by decide)
    (by
      intro x y hx0 hx1 hy0 hy1
      have hx : x < 2 := hx1
      have hy : y < 2 := hy1
      interval_cases x <;> interval_cases y <;> decide)
    zeroRand
    ⟨fun _ => ⟨le_refl (0 : ℚ), zero_lt_one⟩, fun _ _ hn => ⟨le_refl (0 : Int), hn⟩⟩ 0

/-! ### C13, C14: rendering -/

/-- A loop whose body appends one element computes the appended map. -/
theorem foldlM_range_push {α : Type} (f : List α → Nat → Option (List α)) (g : Nat → α)
    (n : Nat) (h : ∀ k buf, k < n → f buf k = some (buf ++ [g k])) (buf0 : List α) :
    (List.range n).foldlM f buf0 = some (buf0 ++ (List.range n).map g) := by
  obtain ⟨s, hrun, hs⟩ := foldlM_range_inv f (fun k buf => buf = buf0 ++ (List.range k).map g)
    n buf0 (by simp)
    (by
      intro k buf hk hinv
      refine ⟨buf ++ [g k], h k buf hk, ?_⟩
      show buf ++ [g k] = buf0 ++ (List.range (k + 1)).map g
      rw [hinv, List.range_succ, List.map_append, List.append_assoc]
      rfl)
  rw [hrun, hs]

/-- A loop whose body appends a block computes the concatenation of the blocks. -/
theorem foldlM_range_append {α : Type} (f : List α → Nat → Option (List α))
    (g : Nat → List α) (n : Nat) (h : ∀ k buf, k < n → f buf k = some (buf ++ g k))
    (buf0 : List α) :
    (List.range n).foldlM f buf0 = some (buf0 ++ ((List.range n).map g).flatten) := by
  obtain ⟨s, hrun, hs⟩ := foldlM_range_inv f
    (fun k buf => buf = buf0 ++ ((List.range k).map g).flatten) n buf0 (by simp)
    (by
      intro k buf hk hinv
      refine ⟨buf ++ g k, h k buf hk, ?_⟩
      show buf ++ g k = buf0 ++ ((List.range (k + 1)).map g).flatten
      rw [hinv, List.range_succ, List.map_append, List.flatten_append, List.append_assoc]
      simp)
  rw [hrun, hs]

/-- On a well-formed engine `String` returns the spec-side render output. -/
theorem String_eq_renderSpec (l : Life) (hl : l.WellFormed) :
    l.String = some (renderSpec l) := by
  obtain ⟨ha, _, haw, hah, _, _⟩ := hl
  unfold Life.String renderSpec
  rw [foldlM_range_append l.renderRow (renderLine l.a l.w.toNat)]
  · simp
  · intro y buf hy
    unfold Life.renderRow renderLine
    rw [foldlM_range_push (l.renderCell y)
      (fun (x : Nat) => cellChar ((l.a.at? (x : Int) (y : Int)).getD false))]
    · simp
    · intro x buf hx
      have hx1 : (x : Int) < l.a.w := by omega
      have hy1 : (y : Int) < l.a.h := by omega
      obtain ⟨v, hv⟩ := at?_isSome l.a ha.1 (Int.natCast_nonneg x) hx1
        (Int.natCast_nonneg y) hy1
      unfold Life.renderCell
      rw [Alive_inrange l.a ha (Int.natCast_nonneg x) hx1 (Int.natCast_nonneg y) hy1, hv]
      rfl

/-- Indexing into the concatenation of blocks of one common length. -/
theorem flatten_getElem?_uniform {α : Type} (L : List (List α)) (m : Nat)
    (hL : ∀ r ∈ L, r.length = m) (y x : Nat) (hx : x < m) :
    L.flatten[y * m + x]? = (L[y]?).bind (fun r => r[x]?) := by
  induction L generalizing y with
  | nil => simp
  | cons r L ih =>
    have hr : r.length = m := hL r (List.mem_cons_self _ _)
    have hL' : ∀ r' ∈ L, r'.length = m := fun r' h' => hL r' (List.mem_cons_of_mem _ h')
    rw [List.flatten_cons]
    cases y with
    | zero =>
      rw [Nat.zero_mul, Nat.zero_add, List.getElem?_append_left (by omega)]
      simp
    | succ y =>
      have hidx : (y + 1) * m + x - r.length = y * m + x := by
        rw [hr, Nat.succ_mul]; omega
      rw [List.getElem?_append_right (by rw [hr, Nat.succ_mul]; omega), hidx, ih hL' y]
      simp

theorem toNat_render_index {w x y : Int} (hx0 : 0 ≤ x) (hy0 : 0 ≤ y) (hw : 0 ≤ w) :
    (y * (w + 1) + x).toNat = y.toNat * (w.toNat + 1) + x.toNat := by
  have h : ((y.toNat * (w.toNat + 1) + x.toNat : Nat) : Int) = y * (w + 1) + x := by
    push_cast
    rw [Int.toNat_of_nonneg hx0, Int.toNat_of_nonneg hy0, Int.toNat_of_nonneg hw]
  have h2 : 0 ≤ y * (w + 1) + x := by positivity
  omega

theorem renderLine_length (f : Field) (w y : Nat) : (renderLine f w y).length = w + 1 := by
  simp [renderLine]

/-- C13: on a well-formed engine with `w >= 1` and `h >= 1`, `String` returns the
concatenation of exactly `h` lines, each made of exactly `w` characters drawn from
`{' ', '*'}` followed by one `'\n'`; its total length is `h * (w + 1)`. -/
theorem String_shape (l : Life) (hl : l.WellFormed) (hw : 1 ≤ l.w) (hh : 1 ≤ l.h) :
    ∃ (out : List Char) (rows : List (List Char)), l.String = some out ∧
      out = (rows.map (fun r => r ++ ['\n'])).flatten ∧
      (rows.length : Int) = l.h ∧
      (∀ r ∈ rows, (r.length : Int) = l.w ∧ ∀ ch ∈ r, ch = ' ' ∨ ch = '*') ∧
      (out.length : Int) = l.h * (l.w + 1) := by
  refine ⟨renderSpec l,
    (List.range l.h.toNat).map (fun (y : Nat) =>
      (List.range l.w.toNat).map
        (fun (x : Nat) => cellChar ((l.a.at? (x : Int) (y : Int)).getD false))),
    String_eq_renderSpec l hl, ?_, ?_, ?_, ?_⟩
  · unfold renderSpec
    rw [List.map_map]
    rfl
  · simp only [List.length_map, List.length_range]
    omega
  · intro r hr
    obtain ⟨y, _, rfl⟩ := List.mem_map.1 hr
    refine ⟨?_, ?_⟩
    · simp only [List.length_map, List.length_range]
      omega
    · intro ch hch
      obtain ⟨x, _, rfl⟩ := List.mem_map.1 hch
      unfold cellChar
      split_ifs
      · exact Or.inr rfl
      · exact Or.inl rfl
  · unfold renderSpec
    rw [List.length_flatten, List.map_map]
    have hconst : ∀ n ∈ (List.range l.h.toNat).map (List.length ∘ renderLine l.a l.w.toNat),
        n = l.w.toNat + 1 := by
      intro n hn
      obtain ⟨y, _, rfl⟩ := List.mem_map.1 hn
      exact renderLine_length l.a l.w.toNat y
    rw [List.sum_eq_card_nsmul _ _ hconst]
    simp only [List.length_map, List.length_range, smul_eq_mul]
    push_cast
    rw [Int.toNat_of_nonneg (by omega), Int.toNat_of_nonneg (by omega)]

theorem String_shape_witness :
    ∃ (out : List Char) (rows : List (List Char)), life33.String = some out ∧
      out = (rows.map (fun r => r ++ ['\n'])).flatten ∧
      (rows.length : Int) = life33.h ∧
      (∀ r ∈ rows, (r.length : Int) = life33.w ∧ ∀ ch ∈ r, ch = ' ' ∨ ch = '*') ∧
      (out.length : Int) = life33.h * (life33.w + 1) :=
  String_shape life33 (by decide) (by decide) (by decide)

/-- C14: on a well-formed engine with `w, h >= 1`, for every in-range `(x, y)` the
character at position `y * (w + 1) + x` of `String()` is `'*'` if cell `(x, y)` of
the current grid is alive and `' '` otherwise; replacing the scratch grid does not
change the output. -/
theorem String_content (l : Life) (hl : l.WellFormed) (hw : 1 ≤ l.w) (hh : 1 ≤ l.h) :
    ∃ out : List Char, l.String = some out ∧
      (∀ x y : Int, 0 ≤ x → x < l.w → 0 ≤ y → y < l.h →
        ∃ v, l.a.Alive x y = some v ∧
          out[(y * (l.w + 1) + x).toNat]? = some (if v then '*' else ' ')) ∧
      ∀ b' : Field, ({ l with b := b' } : Life).String = some out := by
  have haw : l.a.w = l.w := hl.2.2.1
  have hah : l.a.h = l.h := hl.2.2.2.1
  refine ⟨renderSpec l, String_eq_renderSpec l hl, ?_, fun b' => String_eq_renderSpec l hl⟩
  intro x y hx0 hx1 hy0 hy1
  obtain ⟨v, hv⟩ := at?_isSome l.a hl.1.1 hx0 (by omega : x < l.a.w) hy0 (by omega : y < l.a.h)
  refine ⟨v, ?_, ?_⟩
  · rw [Alive_inrange l.a hl.1 hx0 (by omega) hy0 (by omega), hv]
  · have hxn : x.toNat < l.w.toNat := by omega
    have hyn : y.toNat < l.h.toNat := by omega
    unfold renderSpec
    rw [toNat_render_index hx0 hy0 (by omega),
      flatten_getElem?_uniform _ (l.w.toNat + 1) (by
        intro r hr
        obtain ⟨y', _, rfl⟩ := List.mem_map.1 hr
        exact renderLine_length l.a l.w.toNat y') y.toNat x.toNat (by omega)]
    rw [List.getElem?_map, List.getElem?_range hyn]
    simp only [Option.map_some', Option.some_bind, renderLine]
    rw [List.getElem?_append_left (by simp only [List.length_map, List.length_range]; exact hxn),
      List.getElem?_map, List.getElem?_range hxn]
    simp only [Option.map_some', Int.toNat_of_nonneg hx0, Int.toNat_of_nonneg hy0, hv,
      Option.getD_some]
    rfl

theorem String_content_witness :
    ∃ out : List Char, life33.String = some out ∧
      (∀ x y : Int, 0 ≤ x → x < life33.w → 0 ≤ y → y < life33.h →
        ∃ v, life33.a.Alive x y = some v ∧
          out[(y * (life33.w + 1) + x).toNat]? = some (if v then '*' else ' ')) ∧
      ∀ b' : Field, ({ life33 with b := b' } : Life).String = some out :=
  String_content life33 (by decide) (by decide) (by decide)

/-! ### C15: seeding -/

theorem count_set_true (row : List Bool) (i : Nat) (hi : i < row.length) :
    row.count true ≤ (row.set i true).count true ∧
    (row.set i true).count true ≤ row.count true + 1 ∧
    1 ≤ (row.set i true).count true := by
  rw [List.count_set true true row i hi]
  by_cases h : row[i] = true
  · have hpos : 0 < row.count true :=
      List.count_pos_iff.2 (h ▸ List.getElem_mem hi)
    simp only [h, beq_self_eq_true, if_true]
    omega
  · simp only [h, beq_self_eq_true, if_true]
    simp

theorem sum_set_bounds (L : List Nat) (i : Nat) (hi : i < L.length) (v : Nat)
    (h1 : L[i] ≤ v) (h2 : v ≤ L[i] + 1) (h3 : 1 ≤ v) :
    L.sum ≤ (L.set i v).sum ∧ (L.set i v).sum ≤ L.sum + 1 ∧ 1 ≤ (L.set i v).sum := by
  induction L generalizing i with
  | nil => simp at hi
  | cons a L ih =>
    cases i with
    | zero =>
      simp only [List.getElem_cons_zero] at h1 h2
      simp only [List.set_cons_zero, List.sum_cons]
      omega
    | succ i =>
      simp only [List.getElem_cons_succ] at h1 h2
      simp only [List.length_cons] at hi
      obtain ⟨ih1, ih2, ih3⟩ := ih i (by omega) h1 h2
      simp only [List.set_cons_succ, List.sum_cons]
      omega

/-- The written field of an in-range `Set`, and the effect on the population of
setting a cell alive. -/
theorem Set_true_population (f : Field) (hs : f.Shaped) {x y : Int}
    (hx0 : 0 ≤ x) (hx1 : x < f.w) (hy0 : 0 ≤ y) (hy1 : y < f.h) {f' : Field}
    (hset : f.Set x y true = some f') :
    f.population ≤ f'.population ∧ f'.population ≤ f.population + 1 ∧
      1 ≤ f'.population := by
  obtain ⟨hlen, hrows⟩ := hs
  obtain ⟨row, hrow, hget⟩ := index?_of_range f.s hy0 (by omega)
  have hrl : (row.length : Int) = f.w := hrows row (List.getElem?_mem hget)
  have hyn : y.toNat < f.s.length := by omega
  have hxn : x.toNat < row.length := by omega
  have hf' : f' = { f with s := f.s.set y.toNat (row.set x.toNat true) } := by
    have h : f.Set x y true = some { f with s := f.s.set y.toNat (row.set x.toNat true) } := by
      simp [Field.Set, hrow, setIndex?, hx0, hy0, hrl, hx1, hlen, hy1]
    rw [h] at hset
    exact (Option.some.inj hset).symm
  have hrowy : f.s[y.toNat] = row := by
    rw [List.getElem?_eq_getElem hyn] at hget
    exact Option.some.inj hget
  obtain ⟨c1, c2, c3⟩ := count_set_true row x.toNat hxn
  have hyn' : y.toNat < (f.s.map (fun r => r.count true)).length := by simpa using hyn
  have hL : (f.s.map (fun r => r.count true))[y.toNat] = row.count true := by
    simp [hrowy]
  subst hf'
  unfold Field.population
  simp only [List.map_set]
  exact sum_set_bounds (f.s.map (fun r => r.count true)) y.toNat hyn'
    ((row.set x.toNat true).count true) (by rw [hL]; exact c1) (by rw [hL]; exact c2) c3

theorem seedCoords_succ (w h : Int) (src : Rand) (c n : Nat) :
    seedCoords w h src c (n + 1) =
      seedCoords w h src c n ++ [(src.intn (c + 2 * n) w, src.intn (c + 2 * n + 1) h)] := by
  simp [seedCoords, List.range_succ]

theorem replicate_at? (w h : Int) {x y : Int}
    (hx0 : 0 ≤ x) (hx1 : x < w) (hy0 : 0 ≤ y) (hy1 : y < h) :
    ({ s := List.replicate h.toNat (List.replicate w.toNat false), w := w, h := h } :
      Field).at? x y = some false := by
  have hy : y.toNat < h.toNat := by omega
  have hx : x.toNat < w.toNat := by omega
  simp [Field.at?, index?, hx0, hy0, List.getElem?_replicate, hx, hy]

theorem replicate_population (w h : Int) (m n : Nat) :
    ({ s := List.replicate n (List.replicate m false), w := w, h := h } :
      Field).population = 0 := by
  unfold Field.population
  apply List.sum_eq_zero
  intro k hk
  obtain ⟨row, hrow, rfl⟩ := List.mem_map.1 hk
  rw [(List.mem_replicate.1 hrow).2]
  exact List.count_eq_zero.2 (fun hmem => Bool.noConfusion (List.mem_replicate.1 hmem).2)

/-- The seeding loop of `NewLife` on positive dimensions, started on the field `a0`:
after `n` rounds the generator has served `2 * n` more calls and the field is `a0`
after the `n` calls `Set(x, y, true)` at the drawn coordinates. -/
theorem seedLoop_spec (w h : Int) (hw : 0 < w) (hh : 0 < h) (src : Rand) (hsrc : src.Valid)
    (n : Nat) (a0 : Field) (c : Nat) (ha : a0.Shaped) (haw : a0.w = w) (hah : a0.h = h) :
    ∃ a, (List.range n).foldlM (seedCell w h src) (a0, c) = some (a, c + 2 * n) ∧
      a.Shaped ∧ a.w = w ∧ a.h = h ∧
      (seedCoords w h src c n).foldlM (fun f p => f.Set p.1 p.2 true) a0 = some a ∧
      (∀ x y : Int, 0 ≤ x → x < w → 0 ≤ y → y < h →
        a.at? x y = if (x, y) ∈ seedCoords w h src c n then some true else a0.at? x y) ∧
      a0.population ≤ a.population ∧ a.population ≤ a0.population + n ∧
      (1 ≤ n → 1 ≤ a.population) := by
  obtain ⟨⟨a, k⟩, hrun, hs, hw', hh', hk, hfold, hcell, hp1, hp2, hp3⟩ :=
    foldlM_range_inv (seedCell w h src)
      (fun j st => st.1.Shaped ∧ st.1.w = w ∧ st.1.h = h ∧ st.2 = c + 2 * j ∧
        (seedCoords w h src c j).foldlM (fun f p => f.Set p.1 p.2 true) a0 = some st.1 ∧
        (∀ x y : Int, 0 ≤ x → x < w → 0 ≤ y → y < h →
          st.1.at? x y =
            if (x, y) ∈ seedCoords w h src c j then some true else a0.at? x y) ∧
        a0.population ≤ st.1.population ∧ st.1.population ≤ a0.population + j ∧
        (1 ≤ j → 1 ≤ st.1.population))
      n (a0, c)
      ⟨ha, haw, hah, rfl, by simp [seedCoords], by simp [seedCoords], le_rfl, le_rfl,
        fun hj => absurd hj (by omega)⟩
      (by
        rintro j ⟨a, k⟩ _ ⟨hs, hw', hh', hk, hfold, hcell, hp1, hp2, _⟩
        simp only at hs hw' hh' hk hfold hcell hp1 hp2
        subst hk
        obtain ⟨hx0, hx1⟩ := hsrc.2 (c + 2 * j) w hw
        obtain ⟨hy0, hy1⟩ := hsrc.2 (c + 2 * j + 1) h hh
        obtain ⟨a', hset, hs2, hw2, hh2, hat, hframe⟩ := Set_inrange a hs true hx0
          (by rw [hw']; exact hx1) hy0 (by rw [hh']; exact hy1)
        obtain ⟨q1, q2, q3⟩ := Set_true_population a hs hx0 (by rw [hw']; exact hx1) hy0
          (by rw [hh']; exact hy1) hset
        have h1 : ¬ w ≤ 0 := by omega
        have h2 : ¬ h ≤ 0 := by omega
        refine ⟨(a', c + 2 * (j + 1)), ?_, hs2, hw2.trans hw', hh2.trans hh', rfl, ?_, ?_,
          ?_, ?_, fun _ => q3⟩
        · simp [seedCell, Rand.Intn, h1, h2, hset]
          ring
        · show (seedCoords w h src c (j + 1)).foldlM (fun f p => f.Set p.1 p.2 true) a0 =
            some a'
          rw [seedCoords_succ, List.foldlM_append, hfold]
          simp [hset]
        · intro x y hx0' hx1' hy0' hy1'
          show a'.at? x y =
            if (x, y) ∈ seedCoords w h src c (j + 1) then some true else a0.at? x y
          rw [seedCoords_succ]
          by_cases hxy : x = src.intn (c + 2 * j) w ∧ y = src.intn (c + 2 * j + 1) h
          · obtain ⟨rfl, rfl⟩ := hxy
            rw [hat]
            simp
          · have hne : x ≠ src.intn (c + 2 * j) w ∨ y ≠ src.intn (c + 2 * j + 1) h := by
              by_contra hcon
              push_neg at hcon
              exact hxy hcon
            rw [hframe x y hne, hcell x y hx0' hx1' hy0' hy1']
            have hnot : ¬ ((x, y) = (src.intn (c + 2 * j) w, src.intn (c + 2 * j + 1) h)) := by
              intro he
              exact hxy ⟨congrArg Prod.fst he, congrArg Prod.snd he⟩
            simp only [List.mem_append, List.mem_singleton, hnot, or_false]
        · show a0.population ≤ a'.population
          omega
        · show a'.population ≤ a0.population + (j + 1)
          omega)
  simp only at hs hw' hh' hk hfold hcell hp1 hp2 hp3
  subst hk
  exact ⟨a, hrun, hs, hw', hh', hfold, hcell, hp1, hp2, hp3⟩

/-- C15: for `w, h >= 1` (with `w * h` cells inside the address space) and every
valid sequence of draws, `NewLife(w, h)` returns after exactly `floor(w*h/4)` calls
`Set(x, y, true)`, all at drawn in-range coordinates (two `Intn` draws per call);
a cell of the initial current grid is alive exactly when it is one of the drawn
coordinates, so at most `floor(w*h/4)` cells are alive, and at least one when
`w * h >= 4`; the scratch grid is all dead. -/
theorem NewLife_seeding (w h : Int) (hw : 1 ≤ w) (hh : 1 ≤ h) (hsize : w * h < 2 ^ 61)
    (src : Rand) (hsrc : src.Valid) (c : Nat) :
    ∃ l a0, NewLife w h src c = some (l, c + 2 * (w * h / 4).toNat) ∧
      NewField w h = some a0 ∧
      (seedCoords w h src c (w * h / 4).toNat).foldlM (fun f p => f.Set p.1 p.2 true) a0 =
        some l.a ∧
      (seedCoords w h src c (w * h / 4).toNat).length = (w * h / 4).toNat ∧
      (∀ p ∈ seedCoords w h src c (w * h / 4).toNat,
        0 ≤ p.1 ∧ p.1 < w ∧ 0 ≤ p.2 ∧ p.2 < h) ∧
      l.WellFormed ∧ l.w = w ∧ l.h = h ∧
      (∀ x y : Int, 0 ≤ x → x < w → 0 ≤ y → y < h →
        l.a.Alive x y = some (decide ((x, y) ∈ seedCoords w h src c (w * h / 4).toNat))) ∧
      l.a.population ≤ (w * h / 4).toNat ∧
      (4 ≤ w * h → 1 ≤ l.a.population) ∧
      (∀ x y : Int, 0 ≤ x → x < w → 0 ≤ y → y < h → l.b.Alive x y = some false) := by
  have hc : ¬ (h < 0 ∨ (0 < h ∧ w < 0)) := by omega
  have hf : NewField w h =
      some { s := List.replicate h.toNat (List.replicate w.toNat false), w := w, h := h } := by
    rw [NewField_eq, if_neg hc]
  obtain ⟨hs0, _, _, _⟩ := NewField_shaped hf
  have hpos : 0 ≤ w * h := by positivity
  have hwb : w < 2 ^ 61 := by nlinarith
  have hhb : h < 2 ^ 61 := by nlinarith
  have hn : Int.tdiv (wrapInt (w * h)) 4 = w * h / 4 := by
    rw [wrapInt_of_range (by omega) (by omega), Int.tdiv_eq_ediv hpos (by norm_num)]
  obtain ⟨a, hrun, hs, haw, hah, hfold, hcell, _, hp2, hp3⟩ :=
    seedLoop_spec w h (by omega) (by omega) src hsrc (w * h / 4).toNat _ c hs0 rfl rfl
  have hwfa : a.WellFormed := ⟨hs, by rw [haw]; exact hwb, by rw [hah]; exact hhb⟩
  have hwfb : Field.WellFormed ⟨List.replicate h.toNat (List.replicate w.toNat false), w, h⟩ :=
    ⟨hs0, hwb, hhb⟩
  refine ⟨{ a := a, b := _, w := w, h := h }, _, ?_, hf, hfold, ?_, ?_,
    ⟨hwfa, hwfb, haw, hah, rfl, rfl⟩, rfl, rfl, ?_, ?_, ?_, ?_⟩
  · simp [NewLife, hf, hn, hrun]
  · simp [seedCoords]
  · intro p hp
    obtain ⟨k, _, rfl⟩ := List.mem_map.1 hp
    obtain ⟨hx0, hx1⟩ := hsrc.2 (c + 2 * k) w (by omega)
    obtain ⟨hy0, hy1⟩ := hsrc.2 (c + 2 * k + 1) h (by omega)
    exact ⟨hx0, hx1, hy0, hy1⟩
  · intro x y hx0 hx1 hy0 hy1
    show a.Alive x y = _
    rw [Alive_inrange a hwfa hx0 (by omega) hy0 (by omega), hcell x y hx0 hx1 hy0 hy1,
      replicate_at? w h hx0 hx1 hy0 hy1]
    by_cases hm : (x, y) ∈ seedCoords w h src c (w * h / 4).toNat <;> simp [hm]
  · show a.population ≤ _
    rw [replicate_population] at hp2
    omega
  · intro h4
    show 1 ≤ a.population
    apply hp3
    have : 1 ≤ w * h / 4 := by omega
    omega
  · intro x y hx0 hx1 hy0 hy1
    show Field.Alive _ x y = some false
    rw [Alive_inrange _ hwfb hx0 hx1 hy0 hy1, replicate_at? w h hx0 hx1 hy0 hy1]

theorem NewLife_seeding_witness :
    ∃ l a0, NewLife 4 4 zeroRand 0 = some (l, 0 + 2 * ((4 : Int) * 4 / 4).toNat) ∧
      NewField 4 4 = some a0 ∧
      (seedCoords 4 4 zeroRand 0 ((4 : Int) * 4 / 4).toNat).foldlM
        (fun f p => f.Set p.1 p.2 true) a0 = some l.a ∧
      (seedCoords 4 4 zeroRand 0 ((4 : Int) * 4 / 4).toNat).length =
        ((4 : Int) * 4 / 4).toNat ∧
      (∀ p ∈ seedCoords 4 4 zeroRand 0 ((4 : Int) * 4 / 4).toNat,
        0 ≤ p.1 ∧ p.1 < 4 ∧ 0 ≤ p.2 ∧ p.2 < 4) ∧
      l.WellFormed ∧ l.w = 4 ∧ l.h = 4 ∧
      (∀ x y : Int, 0 ≤ x → x < 4 → 0 ≤ y → y < 4 →
        l.a.Alive x y =
          some (decide ((x, y) ∈ seedCoords 4 4 zeroRand 0 ((4 : Int) * 4 / 4).toNat))) ∧
      l.a.population ≤ ((4 : Int) * 4 / 4).toNat ∧
      ((4 : Int) ≤ 4 * 4 → 1 ≤ l.a.population) ∧
      (∀ x y : Int, 0 ≤ x → x < 4 → 0 ≤ y → y < 4 → l.b.Alive x y = some false) :=
  NewLife_seeding 4 4 (by decide) (by decide) (by decide) zeroRand
    ⟨fun _ => ⟨le_refl (0 : ℚ), zero_lt_one⟩, fun _ _ hn => ⟨le_refl (0 : Int), hn⟩⟩ 0

end Conway
